import Mathlib

/-!
# Verification of `vector.cpp` (class template `Vector<T>`)

Shallow embedding of the storage core of `src/vector.cpp`, and of what the source
declares without defining, modelled from the specification: `CopyFrom` and the sort
engine (each such definition says so).

* A value of the element type `T` is its object representation: a list of
  `w = sizeof(T)` bytes.  The template parameter shows up as the explicit
  argument `w` of every operation that touches the buffer.
* The block `_element` points to is the list of the bytes of that block
  (`_capacity * w` bytes for a block obtained from `new T[_capacity]`).
* `new T[n]` does not write the block it returns; the bytes found there are
  given by the argument `fresh` (byte `i` of the new block is `fresh i`).  For
  `n ≥ 0` the allocation is taken to succeed (running out of memory is not
  modelled); for `n < 0` it throws `std::bad_array_new_length`.
* `int` is a 32-bit two's-complement integer: the fields are `Int`s and the
  arithmetic that can leave the range goes through `wrap32`.
-/

set_option autoImplicit false

namespace CDS

/-! ## Machine level -/

/-- One byte of memory. -/
abbrev Byte := Nat

/-- The value an `int` holds after a result `x` of exact arithmetic is stored in it
(32 bits, two's complement). -/
def wrap32 (x : Int) : Int := (x + 2147483648) % 4294967296 - 2147483648

/-- Conversion of an `int` to `size_t` (64 bits), as done for the third argument of
`memcpy`. -/
def size_t (x : Int) : Nat := (x % 18446744073709551616).toNat

/-- The macro `DEFAULT_CAPACITY` (line 19: `#define DEFAULT_CAPACITY 3`). -/
def DEFAULT_CAPACITY : Int := 3

/-- The block returned by `new T[n]` for `n ≥ 0`: `n * w` bytes, left as found
(`fresh`). -/
def newArray (w : Nat) (fresh : Nat → Byte) (n : Int) : List Byte :=
  (List.range (n.toNat * w)).map fresh

/-- The call `memcpy(dst, src, n)`: the first `n` bytes of the block `dst` become the
first `n` bytes of `src`, the other bytes of `dst` stay.  (Defined behaviour needs both blocks
to have at least `n` bytes.) -/
def memcpy (dst src : List Byte) (n : Nat) : List Byte :=
  src.take n ++ dst.drop n

/-- The object `*(p + r)` read as a `T`: the `w` bytes at offset `r * w` of the block. -/
def readElem (w : Nat) (buf : List Byte) (r : Nat) : List Byte :=
  (buf.drop (r * w)).take w

/-- The store `p[r] = val`: the `w` bytes at offset `r * w` of the block are
overwritten.  A store past the end of the block does not land in the block, which
stays as it is. -/
def storeElem (w : Nat) (buf : List Byte) (r : Nat) (val : List Byte) : List Byte :=
  if (r + 1) * w ≤ buf.length then buf.take (r * w) ++ val ++ buf.drop ((r + 1) * w)
  else buf

/-! ## The class -/

/-- The data members of `Vector<T>` (lines 32-34). -/
structure Vector where
  _capacity : Int
  _size : Int
  _element : List Byte
deriving DecidableEq, Repr

/-- How a member function is left. -/
inductive Exit where
  /-- the function returned -/
  | returned
  /-- thrown out of: `new T[n]` was reached with `n < 0` (`std::bad_array_new_length`) -/
  | bad_array_new_length
  /-- failed with the specification's `RangeError` (a copy range that is not valid) -/
  | range_error
deriving DecidableEq, Repr

/-- Result of running a member function: how it was left and the data members then. -/
structure Outcome where
  exit : Exit
  self : Vector
deriving DecidableEq, Repr

namespace Vector

/-- The element at rank `r`, `*(_element + r)`, as `operator<<` reads it (line 133). -/
def elemAt (w : Nat) (v : Vector) (r : Nat) : List Byte :=
  readElem w v._element r

/-- The loop of the constructor (lines 55-56):
`for (_size = 0; _size < size; _element[_size++] = initVal) ;`
started from the state reached after `_size = 0`. -/
def ctorLoop (w : Nat) (size : Int) (initVal : List Byte) (v : Vector) : Vector :=
  if v._size < size then
    ctorLoop w size initVal
      { v with
        _element := storeElem w v._element v._size.toNat initVal
        _size := v._size + 1 }
  else v
termination_by (size - v._size).toNat
decreasing_by simp_wf; omega

/-- The constructor `Vector(int cap, int size, T initVal)` (lines 53-57):
`_element = new T[_capacity = cap];` and then the loop.  The result is `none` when
`new T[cap]` threw (`cap < 0`): no object exists then. -/
def ctor (w : Nat) (fresh : Nat → Byte) (cap size : Int) (initVal : List Byte) :
    Option Vector :=
  if cap < 0 then none
  else
    some (ctorLoop w size initVal
      { _capacity := cap, _size := 0, _element := newArray w fresh cap })

/-- The constructor with its default arguments `cap = DEFAULT_CAPACITY`, `size = 0`,
`initVal = 0` (line 53). -/
def ctorDefault (w : Nat) (fresh : Nat → Byte) : Option Vector :=
  ctor w fresh DEFAULT_CAPACITY 0 (List.replicate w 0)

/-- The member function `Vector<T>::Expand` (lines 109-119): nothing is done while
`_size < _capacity`; otherwise `_capacity` is raised to `DEFAULT_CAPACITY` if below it,
doubled by `_capacity <<= 1` (stored before `new` runs), a block of that many elements
is allocated and `memcpy(_element, oldElement, _size)` copies `_size` bytes into it. -/
def Expand (w : Nat) (fresh : Nat → Byte) (v : Vector) : Outcome :=
  if v._size < v._capacity then ⟨Exit.returned, v⟩
  else
    let cap0 := if v._capacity < DEFAULT_CAPACITY then DEFAULT_CAPACITY else v._capacity
    let cap1 := wrap32 (cap0 * 2)
    if cap1 < 0 then ⟨Exit.bad_array_new_length, { v with _capacity := cap1 }⟩
    else
      let oldElement := v._element
      ⟨Exit.returned,
        { _capacity := cap1
          _size := v._size
          _element := memcpy (newArray w fresh cap1) oldElement (size_t v._size) }⟩

/-- Modelled from the spec: the element-wise copy of `CopyFrom` (declared at lines
37-38, not defined: lines 102-107 are comments).  The `n` elements at the ranks `lo`,
`lo + 1`, ... of the block `src` are stored, one element at a time, at the ranks `0`,
`1`, ... of the block `dst`. -/
def copyElems (w : Nat) (src : List Byte) (lo : Nat) : Nat → List Byte → List Byte
  | 0, dst => dst
  | n + 1, dst => storeElem w (copyElems w src lo n dst) n (readElem w src (lo + n))

/-- Modelled from the spec: `void CopyFrom(const T* const src, Rank lo, Rank hi)`, which
the source declares (lines 37-38, "copy vector from array in [lo, hi)") and does not
define (lines 102-107 are comments).  After the specification, section 4.1: the
precondition is `0 ≤ lo ≤ hi ≤ source.size`, read on the block `src` as: the block
holds at least `hi` elements, and its "violation fails with `RangeError`" (the data
members are then as before); otherwise a fresh buffer "sized to accommodate `hi - lo`
elements" is allocated, "over-allocate, e.g. double the needed span" (here: double),
`size = hi - lo`, and `source[lo..hi)` is copied element-wise.  The specification
gives the fields no width, so the arithmetic is exact. -/
def CopyFrom (w : Nat) (fresh : Nat → Byte) (self : Vector) (src : List Byte)
    (lo hi : Int) : Outcome :=
  if 0 ≤ lo ∧ lo ≤ hi ∧ hi.toNat * w ≤ src.length then
    ⟨Exit.returned,
      { _capacity := 2 * (hi - lo)
        _size := hi - lo
        _element :=
          copyElems w src lo.toNat (hi - lo).toNat (newArray w fresh (2 * (hi - lo))) }⟩
  else ⟨Exit.range_error, self⟩

/-- The object a constructor leaves when its body is the call `call` on the raw
object: none when the call did not return. -/
def constructed (call : Outcome) : Option Vector :=
  if call.exit = Exit.returned then some call.self else none

/-- The constructor `Vector(const T* const src, Rank n)` (line 58); `raw` is the object
before the body runs. -/
def ctorArray (w : Nat) (fresh : Nat → Byte) (raw : Vector) (src : List Byte) (n : Int) :
    Option Vector :=
  constructed (CopyFrom w fresh raw src 0 n)

/-- The constructor `Vector(const T* const src, Rank lo, Rank hi)` (line 59). -/
def ctorArrayRange (w : Nat) (fresh : Nat → Byte) (raw : Vector) (src : List Byte)
    (lo hi : Int) : Option Vector :=
  constructed (CopyFrom w fresh raw src lo hi)

/-- The constructor `Vector(Vector<T> const& v, Rank lo, Rank hi)` (line 61). -/
def ctorCopyRange (w : Nat) (fresh : Nat → Byte) (raw : Vector) (v : Vector)
    (lo hi : Int) : Option Vector :=
  constructed (CopyFrom w fresh raw v._element lo hi)

/-- The query `Size()` (line 65). -/
def Size (v : Vector) : Int := v._size

/-- The query `Empty()` (line 66): `!_size`. -/
def Empty (v : Vector) : Bool := decide (v._size = 0)

/-- The whole-container `Search(T const& t)` (lines 71-73).  The ranged
`Search(t, lo, hi)` is only declared in the source (line 70); it is the argument
`searchRange`. -/
def Search (searchRange : Vector → List Byte → Int → Int → Int) (v : Vector)
    (t : List Byte) : Int :=
  if v._size ≤ 0 then -1 else searchRange v t 0 v._size

/-- The whole-container `Find(T const& t)` (line 69).  The ranged `Find(t, lo, hi)` is
only declared in the source (line 68); it is the argument `findRange`. -/
def Find (findRange : Vector → List Byte → Int → Int → Int) (v : Vector)
    (t : List Byte) : Int :=
  findRange v t 0 v._size

/-- The whole-container `Sort()` (line 82).  The ranged `Sort(lo, hi)` is only declared
in the source (line 81); it is the argument `sortRange`, with whatever it yields
(`ρ`: the container afterwards, and any other effect).  (`Sort` is a reserved word
of Lean, hence the name.) -/
def SortAll {ρ : Type} (sortRange : Vector → Int → Int → ρ) (v : Vector) : ρ :=
  sortRange v 0 v._size

/-- The whole-container `Unsort()` (line 84).  The ranged `Unsort(lo, hi)` is only
declared in the source (line 83); it is the argument `unsortRange`, with whatever it
yields (`ρ`: the container afterwards, the state of the random source, ...). -/
def Unsort {ρ : Type} (unsortRange : Vector → Int → Int → ρ) (v : Vector) : ρ :=
  unsortRange v 0 v._size

end Vector

/-! ## The sort engine

The source declares `Bubble`, `BubbleSort`, `Max`, `SelectionSort`, `Merge`,
`MergeSort`, `Partition`, `QuickSort`, `HeapSort` (lines 41-49) and `Sort(lo, hi)`
(line 81) and defines none of them.  They are modelled here from the description the
specification gives of each, on the typed view of the buffer: the map from rank to
element, for a linearly ordered element type. -/

namespace SortEngine

section Definitions

variable {α : Type} [LinearOrder α]

/-- Modelled from the spec: the typed view of the buffer the sort engine works on (the
source declares the sort operations, lines 41-49 and 81, and defines none).  The buffer
is the map from rank to element, the element type any linearly ordered type; `slice`
lists the elements at the ranks of the half-open range `[lo, hi)`, in rank order. -/
def slice (a : Nat → α) (lo hi : Nat) : List α :=
  (List.range (hi - lo)).map (fun i => a (lo + i))

/-- Modelled from the spec: storing the list `l` at the ranks `lo`, `lo + 1`, ... of the
buffer (the in-place result of a step computed on the elements of a range; no code for
it in the source). -/
def writeBack (a : Nat → α) (lo : Nat) (l : List α) : Nat → α :=
  fun r => if lo ≤ r then l.getD (r - lo) (a r) else a r

/-- Modelled from the spec: the swap of the elements at ranks `i` and `j` ("swapping",
"swap it into place"; no code for it in the source). -/
def swapAt (a : Nat → α) (i j : Nat) : Nat → α :=
  fun r => if r = i then a j else if r = j then a i else a r

/-- The ranks outside `[lo, hi)` hold in `b` what they hold in `a`. -/
def SameOutside (a b : Nat → α) (lo hi : Nat) : Prop :=
  ∀ r, r < lo ∨ hi ≤ r → b r = a r

/-- The buffer `b` is `a` with the elements of `[lo, hi)` rearranged: the same outside
the range, the same multiset inside. -/
def Rearranges (a b : Nat → α) (lo hi : Nat) : Prop :=
  SameOutside a b lo hi ∧ (slice b lo hi).Perm (slice a lo hi)

/-- The elements of `[lo, hi)` are in ascending order. -/
def Ascending (b : Nat → α) (lo hi : Nat) : Prop :=
  (slice b lo hi).Sorted (· ≤ ·)

/-- Modelled from the spec: the scan of one `Bubble` pass (declared at line 41, not
defined), holding the element `x` of the current rank against the next ones: an
adjacent out-of-order pair is swapped; the flag tells whether any swap occurred. -/
def bubbleFrom (x : α) : List α → Bool × List α
  | [] => (false, [x])
  | y :: t =>
    if y < x then (true, y :: (bubbleFrom x t).2)
    else ((bubbleFrom y t).1, x :: (bubbleFrom y t).2)

/-- Modelled from the spec: one `Bubble` pass over the elements of a range (declared
at line 41, not defined): "swapping adjacent out-of-order pairs", with the flag
"whether any swap occurred". -/
def bubblePass : List α → Bool × List α
  | [] => (false, [])
  | x :: t => bubbleFrom x t

/-- Modelled from the spec: `bool Bubble(Rank lo, Rank hi)` (declared at line 41, not
defined): one pass over `[lo, hi)`, done in place; "`Bubble` returns whether any swap
occurred". -/
def Bubble (a : Nat → α) (lo hi : Nat) : Bool × (Nat → α) :=
  ((bubblePass (slice a lo hi)).1, writeBack a lo (bubblePass (slice a lo hi)).2)

/-- Modelled from the spec: the passes of `BubbleSort` (declared at line 42, not
defined): "repeated passes over `[lo, hi)`", at most `k`, and "a pass that performs
zero swaps signals the range is sorted and terminates early". -/
def bubbleLoop : Nat → (Nat → α) → Nat → Nat → (Nat → α)
  | 0, a, _, _ => a
  | k + 1, a, lo, hi =>
    if (Bubble a lo hi).1 then bubbleLoop k (Bubble a lo hi).2 lo hi
    else (Bubble a lo hi).2

/-- Modelled from the spec: `void BubbleSort(Rank lo, Rank hi)` (declared at line 42,
not defined): at most `hi - lo` passes of `Bubble` over `[lo, hi)`, ended early by a
pass without swap. -/
def BubbleSort (a : Nat → α) (lo hi : Nat) : Nat → α :=
  bubbleLoop (hi - lo) a lo hi

/-- Modelled from the spec: the scan of `Max` (declared at line 43, not defined):
`best` is the rank of a maximum of the ranks seen so far, `i` the next rank, and `k`
ranks are still to be seen. -/
def maxScan (a : Nat → α) : Nat → Nat → Nat → Nat
  | best, _, 0 => best
  | best, i, k + 1 => maxScan a (if a best < a i then i else best) (i + 1) k

/-- Modelled from the spec: `Rank Max(Rank lo, Rank hi)` (declared at line 43, not
defined): the rank of a maximum of `[lo, hi)` ("find the maximum in the unsorted
prefix ... via `Max`"). -/
def Max (a : Nat → α) (lo hi : Nat) : Nat :=
  maxScan a lo (lo + 1) (hi - lo - 1)

/-- Modelled from the spec: the loop of `SelectionSort` (declared at line 44, not
defined) with `k` positions left: the position is `lo + k - 1`, the maximum of
`[lo, position]` is found by `Max` and swapped into the position. -/
def selectionLoop (lo : Nat) : Nat → (Nat → α) → (Nat → α)
  | 0, a => a
  | k + 1, a => selectionLoop lo k (swapAt a (Max a lo (lo + k + 1)) (lo + k))

/-- Modelled from the spec: `void SelectionSort(Rank lo, Rank hi)` (declared at line
44, not defined): "for each position from `hi-1` down to `lo`, find the maximum in the
unsorted prefix `[lo, position]` via `Max`, swap it into place". -/
def SelectionSort (a : Nat → α) (lo hi : Nat) : Nat → α :=
  selectionLoop lo (hi - lo) a

/-- The ranks `[p, hi)` are ascending and hold nothing smaller than any rank of
`[lo, p)`. -/
def SuffixDone (a : Nat → α) (lo p hi : Nat) : Prop :=
  (∀ i j, p ≤ i → i ≤ j → j < hi → a i ≤ a j) ∧
  (∀ i j, lo ≤ i → i < p → p ≤ j → j < hi → a i ≤ a j)

/-- Modelled from the spec: the merge of two ascending runs "by iterated
minimum-comparison, stable": the smaller head goes first and on a tie the head of the
left run (no code for it in the source). -/
def mergeLists : List α → List α → List α
  | [], r => r
  | x :: l, [] => x :: l
  | x :: l, y :: r =>
    if y < x then y :: mergeLists (x :: l) r else x :: mergeLists l (y :: r)
termination_by l r => l.length + r.length

/-- Modelled from the spec: `void Merge(Rank lo, Rank hi)` (declared at line 45, not
defined): the halves of `[lo, hi)` around the midpoint `(lo + hi) / 2` are merged and
the result is stored at `[lo, hi)`; the two runs are read before anything is stored,
which is what the auxiliary buffer is for. -/
def Merge (a : Nat → α) (lo hi : Nat) : Nat → α :=
  writeBack a lo (mergeLists (slice a lo ((lo + hi) / 2)) (slice a ((lo + hi) / 2) hi))

/-- Modelled from the spec: `void MergeSort(Rank lo, Rank hi)` (declared at line 46,
not defined): "recursively split `[lo, hi)` at the midpoint, sort halves, `Merge`
them"; a range of fewer than two elements is left alone. -/
def MergeSort (a : Nat → α) (lo hi : Nat) : Nat → α :=
  if hi - lo < 2 then a
  else Merge (MergeSort (MergeSort a lo ((lo + hi) / 2)) ((lo + hi) / 2) hi) lo hi
termination_by hi - lo
decreasing_by all_goals omega

/-- Modelled from the spec: `Rank Partition(Rank lo, Rank hi)` (declared at line 47,
not defined): the pivot is the element at `lo`; the range is rearranged "so all
elements `< pivot` precede it and all `≥ pivot` follow", and the pivot's final rank is
returned with the buffer. -/
def Partition (a : Nat → α) (lo hi : Nat) : (Nat → α) × Nat :=
  (writeBack a lo
      ((slice a (lo + 1) hi).filter (fun x => decide (x < a lo)) ++
        a lo :: (slice a (lo + 1) hi).filter (fun x => !decide (x < a lo))),
    lo + ((slice a (lo + 1) hi).filter (fun x => decide (x < a lo))).length)

/-- Modelled from the spec: `void QuickSort(Rank lo, Rank hi)` (declared at line 48,
not defined): `Partition`, then "recurse on both sides" of the pivot's rank; a range of
fewer than two elements is left alone. -/
def QuickSort (a : Nat → α) (lo hi : Nat) : Nat → α :=
  if hi - lo < 2 then a
  else
    QuickSort (QuickSort (Partition a lo hi).1 lo (Partition a lo hi).2)
      ((Partition a lo hi).2 + 1) hi
termination_by hi - lo
decreasing_by
  · have h1 := List.length_filter_le (fun x => decide (x < a lo)) (slice a (lo + 1) hi)
    simp only [slice, List.length_map, List.length_range] at h1
    simp only [Partition, slice]
    omega
  · simp only [Partition]
    omega

/-- Modelled from the spec: a step of the heap's comparison of a node with a child (no
code for it in the source): the node `c`, if it is in the heap of `n` nodes stored
from rank `lo` and holds more than node `m`, else `m`. -/
def bigger (a : Nat → α) (lo n m c : Nat) : Nat :=
  if c < n ∧ a (lo + m) < a (lo + c) then c else m

/-- Modelled from the spec: the node holding the largest element among node `i` and
its children `2i + 1`, `2i + 2` in the max-heap of `n` nodes stored from rank `lo` (no
code for it in the source). -/
def largest (a : Nat → α) (lo n i : Nat) : Nat :=
  bigger a lo n (bigger a lo n i (2 * i + 1)) (2 * i + 2)

/-- Modelled from the spec: restoring the max-heap of `n` nodes stored from rank `lo`
below node `i` (no code for it in the source): while a child holds more than the
node, the node is swapped with its largest child. -/
def siftDown (a : Nat → α) (lo n i : Nat) : Nat → α :=
  if largest a lo n i = i then a
  else siftDown (swapAt a (lo + i) (lo + largest a lo n i)) lo n (largest a lo n i)
termination_by n - i
decreasing_by
  rename_i h
  simp only [largest, bigger] at h ⊢
  split_ifs at h ⊢ <;> omega

/-- Modelled from the spec: "build a max-heap in place over `[lo, hi)`" (part of
`HeapSort`, declared at line 49, not defined): the nodes `k - 1`, ..., `0` are sifted
down in turn. -/
def heapifyLoop (lo n : Nat) : Nat → (Nat → α) → (Nat → α)
  | 0, a => a
  | k + 1, a => heapifyLoop lo n k (siftDown a lo n k)

/-- Modelled from the spec: "repeatedly extract the maximum to the end of the
shrinking range" (part of `HeapSort`, declared at line 49, not defined): with a heap of
`m + 1` nodes the root is swapped with the last node and the heap of the first `m`
nodes is restored. -/
def extractLoop (lo : Nat) : Nat → (Nat → α) → (Nat → α)
  | 0, a => a
  | m + 1, a => extractLoop lo m (siftDown (swapAt a lo (lo + m)) lo m 0)

/-- Modelled from the spec: `void HeapSort(Rank lo, Rank hi)` (declared at line 49,
not defined): "build a max-heap in place over `[lo, hi)`, repeatedly extract the
maximum to the end of the shrinking range". -/
def HeapSort (a : Nat → α) (lo hi : Nat) : Nat → α :=
  extractLoop lo (hi - lo) (heapifyLoop lo (hi - lo) ((hi - lo) / 2) a)

/-- Node `j` of the heap of `n` nodes stored from rank `lo` holds nothing smaller than
its children. -/
def NodeOk (a : Nat → α) (lo n j : Nat) : Prop :=
  ∀ c, (c = 2 * j + 1 ∨ c = 2 * j + 2) → c < n → a (lo + c) ≤ a (lo + j)

/-- Every node from `k` on is above its children. -/
def HeapFrom (a : Nat → α) (lo n k : Nat) : Prop :=
  ∀ j, k ≤ j → NodeOk a lo n j

/-- Modelled from the spec: the choice `Sort(lo, hi)` makes among the five algorithms
("dispatches to exactly one of the above", "which algorithm is selected is an
implementation choice"). -/
inductive SortChoice where
  | bubble
  | selection
  | merge
  | quick
  | heap
deriving DecidableEq, Repr

/-- Modelled from the spec: `void Sort(Rank lo, Rank hi)` (declared at line 81, not
defined): "dispatches to exactly one of the above".  (`Sort` is a reserved word of
Lean, hence the name.) -/
def SortRange (choice : SortChoice) (a : Nat → α) (lo hi : Nat) : Nat → α :=
  match choice with
  | SortChoice.bubble => BubbleSort a lo hi
  | SortChoice.selection => SelectionSort a lo hi
  | SortChoice.merge => MergeSort a lo hi
  | SortChoice.quick => QuickSort a lo hi
  | SortChoice.heap => HeapSort a lo hi

/-- The buffer `b` is `a` with `[lo, hi)` rearranged into the ascending permutation of
its multiset: the same outside the range, the same multiset inside, ascending. -/
def SortsInto (a b : Nat → α) (lo hi : Nat) : Prop :=
  Rearranges a b lo hi ∧ Ascending b lo hi

/-- The buffer of a container holding the elements of `l` at the ranks `0`, `1`, ...;
the slots past them hold `d`. -/
def ofList (d : α) (l : List α) : Nat → α :=
  fun r => l.getD r d

end Definitions

end SortEngine

/-! ## Concrete containers used as test inputs -/

/-- A `Vector<int>` (`w = 4`) with capacity 0 and no element, as `Vector<int>(0)` builds. -/
def emptyInts : Vector := ⟨0, 0, []⟩

/-- A full `Vector<int>` (`w = 4`, little-endian) holding 1, 2. -/
def fullInts2 : Vector := ⟨2, 2, [1, 0, 0, 0, 2, 0, 0, 0]⟩

/-- A full `Vector<int>` (`w = 4`, little-endian) holding 1, 2, 3. -/
def fullInts3 : Vector := ⟨3, 3, [1, 0, 0, 0, 2, 0, 0, 0, 3, 0, 0, 0]⟩

/-- A `Vector<int>` (`w = 4`, little-endian) of capacity 3 holding one element, 7. -/
def roomyInts : Vector := ⟨3, 1, [7, 0, 0, 0, 0, 0, 0, 0, 0, 0, 0, 0]⟩

/-- A full `Vector<int>` (`w = 4`, little-endian) holding 10, 20, 30. -/
def srcInts : Vector := ⟨3, 3, [10, 0, 0, 0, 20, 0, 0, 0, 30, 0, 0, 0]⟩

/-- A full `Vector<char>` (`w = 1`) holding 10, 20, 30. -/
def srcChars : Vector := ⟨3, 3, [10, 20, 30]⟩

/-- The typed buffer of a `Vector<int>` holding 5, 3, 3, 1, 4 (the slots past them
hold 0). -/
def ints53314 : Nat → Int := SortEngine.ofList 0 [5, 3, 3, 1, 4]

/-- The typed buffer of a `Vector<int>` holding 9, 5, 3, 3, 1, 4, 7 (the slots past
them hold 0). -/
def ints9533147 : Nat → Int := SortEngine.ofList 0 [9, 5, 3, 3, 1, 4, 7]

/-- A full `Vector<char>` (`w = 1`) of `2^30` elements, all 0. -/
def fullChars30 : Vector :=
  ⟨1073741824, 1073741824, List.replicate 1073741824 0⟩


/-! ## Basic facts -/

theorem wrap32_of_range (x : Int) (h0 : -2147483648 ≤ x) (h1 : x < 2147483648) :
    wrap32 x = x := by
  unfold wrap32; omega

theorem size_t_of_range (x : Int) (h0 : 0 ≤ x) (h1 : x < 2147483648) :
    (size_t x : Int) = x := by
  unfold size_t; omega

/-- The capacity `Expand` doubles: at least `DEFAULT_CAPACITY`. -/
theorem Expand_grown (w : Nat) (fresh : Nat → Byte) (v : Vector)
    (hfull : v._capacity ≤ v._size) (hlt : v._capacity < 1073741824) :
    Vector.Expand w fresh v =
      ⟨Exit.returned,
        { _capacity := 2 * max DEFAULT_CAPACITY v._capacity
          _size := v._size
          _element := memcpy (newArray w fresh (2 * max DEFAULT_CAPACITY v._capacity))
            v._element (size_t v._size) }⟩ := by
  have hnot : ¬ v._size < v._capacity := by omega
  have hcap : wrap32 ((if v._capacity < DEFAULT_CAPACITY then DEFAULT_CAPACITY
      else v._capacity) * 2) = 2 * max DEFAULT_CAPACITY v._capacity := by
    unfold DEFAULT_CAPACITY wrap32
    split <;> omega
  have hpos : ¬ (2 * max DEFAULT_CAPACITY v._capacity < 0) := by
    unfold DEFAULT_CAPACITY; omega
  simp only [Vector.Expand, hnot, if_false, hcap, hpos]

/-- On a full container whose capacity is in `[2^30, 2^31)` the doubling leaves the
range of `int`: the stored capacity is negative and `new` throws. -/
theorem Expand_overflow (w : Nat) (fresh : Nat → Byte) (v : Vector)
    (hfull : v._capacity ≤ v._size) (hge : 1073741824 ≤ v._capacity)
    (hlt : v._capacity < 2147483648) :
    Vector.Expand w fresh v =
      ⟨Exit.bad_array_new_length, { v with _capacity := 2 * v._capacity - 4294967296 }⟩ := by
  have hnot : ¬ v._size < v._capacity := by omega
  have hcap : wrap32 ((if v._capacity < DEFAULT_CAPACITY then DEFAULT_CAPACITY
      else v._capacity) * 2) = 2 * v._capacity - 4294967296 := by
    unfold DEFAULT_CAPACITY wrap32
    split <;> omega
  have hneg : 2 * v._capacity - 4294967296 < 0 := by omega
  simp only [Vector.Expand, hnot, if_false, hcap, hneg, if_true]

theorem Expand_idle (w : Nat) (fresh : Nat → Byte) (v : Vector)
    (h : v._size < v._capacity) : Vector.Expand w fresh v = ⟨Exit.returned, v⟩ := by
  simp only [Vector.Expand, h, if_true]

/-! ## The constructor loop -/

theorem length_storeElem (w : Nat) (buf : List Byte) (r : Nat) (val : List Byte)
    (hval : val.length = w) : (storeElem w buf r val).length = buf.length := by
  unfold storeElem
  split
  · rename_i h
    have h2 : (r + 1) * w = r * w + w := by ring
    simp only [List.length_append, List.length_take, List.length_drop, hval]
    omega
  · rfl

theorem readElem_storeElem_same (w : Nat) (buf : List Byte) (r : Nat) (val : List Byte)
    (hval : val.length = w) (hin : (r + 1) * w ≤ buf.length) :
    readElem w (storeElem w buf r val) r = val := by
  have h2 : (r + 1) * w = r * w + w := by ring
  have hlen : (buf.take (r * w)).length = r * w := by
    rw [List.length_take]; omega
  unfold readElem storeElem
  rw [if_pos hin, List.append_assoc, List.drop_append_of_le_length (by omega),
    List.drop_of_length_le (by omega), List.nil_append,
    List.take_append_of_le_length (by omega), List.take_of_length_le (by omega)]

theorem readElem_storeElem_below (w : Nat) (buf : List Byte) (r q : Nat) (val : List Byte)
    (hq : q < r) : readElem w (storeElem w buf r val) q = readElem w buf q := by
  unfold storeElem
  split
  · rename_i hin
    have h2 : (q + 1) * w ≤ r * w := Nat.mul_le_mul_right w hq
    have h3 : (q + 1) * w = q * w + w := by ring
    have h4 : (r + 1) * w = r * w + w := by ring
    have hlen : (buf.take (r * w)).length = r * w := by
      rw [List.length_take]; omega
    unfold readElem
    rw [List.append_assoc, List.drop_append_of_le_length (by omega),
      List.take_append_of_le_length (by rw [List.length_drop]; omega),
      List.drop_take, List.take_take]
    congr 1
    omega
  · rfl
theorem length_newArray (w : Nat) (fresh : Nat → Byte) (n : Int) :
    (newArray w fresh n).length = n.toNat * w := by
  simp [newArray]

theorem ctorLoop_step (w : Nat) (size : Int) (initVal : List Byte) (v : Vector)
    (h : v._size < size) :
    Vector.ctorLoop w size initVal v =
      Vector.ctorLoop w size initVal
        { v with
          _element := storeElem w v._element v._size.toNat initVal
          _size := v._size + 1 } := by
  rw [Vector.ctorLoop, if_pos h]

theorem ctorLoop_stop (w : Nat) (size : Int) (initVal : List Byte) (v : Vector)
    (h : ¬ v._size < size) : Vector.ctorLoop w size initVal v = v := by
  rw [Vector.ctorLoop, if_neg h]

/-- The loop leaves `_capacity` alone and stops with `_size = max _size size`. -/
theorem ctorLoop_fields (w : Nat) (size : Int) (initVal : List Byte) :
    ∀ (n : Nat) (v : Vector), (size - v._size).toNat = n →
      (Vector.ctorLoop w size initVal v)._capacity = v._capacity ∧
      (Vector.ctorLoop w size initVal v)._size = max v._size size := by
  intro n
  induction n with
  | zero =>
    intro v hn
    rw [ctorLoop_stop w size initVal v (by omega)]
    exact ⟨rfl, by omega⟩
  | succ n ih =>
    intro v hn
    rw [ctorLoop_step w size initVal v (by omega)]
    obtain ⟨h1, h2⟩ := ih
      { v with
        _element := storeElem w v._element v._size.toNat initVal
        _size := v._size + 1 } (by simp only []; omega)
    refine ⟨h1, ?_⟩
    rw [h2]
    simp only []
    omega

/-- The loop writes `initVal` at every rank below `size`, when the block has room for
`size` elements. -/
theorem ctorLoop_fill (w : Nat) (size : Int) (initVal : List Byte)
    (hval : initVal.length = w) :
    ∀ (n : Nat) (v : Vector), (size - v._size).toNat = n → 0 ≤ v._size →
      size.toNat * w ≤ v._element.length →
      (∀ q : Nat, (q : Int) < v._size → readElem w v._element q = initVal) →
      ∀ q : Nat, (q : Int) < size →
        readElem w (Vector.ctorLoop w size initVal v)._element q = initVal := by
  intro n
  induction n with
  | zero =>
    intro v hn _ _ hinv q hq
    rw [ctorLoop_stop w size initVal v (by omega)]
    exact hinv q (by omega)
  | succ n ih =>
    intro v hn h0 hroom hinv q hq
    rw [ctorLoop_step w size initVal v (by omega)]
    have hin : (v._size.toNat + 1) * w ≤ v._element.length :=
      le_trans (Nat.mul_le_mul_right w (by omega)) hroom
    refine ih _ (by simp only []; omega) (by simp only []; omega) ?_ ?_ q hq
    · simp only []
      rw [length_storeElem w _ _ _ hval]
      exact hroom
    · intro p hp
      simp only [] at hp ⊢
      by_cases hpv : p < v._size.toNat
      · rw [readElem_storeElem_below w _ _ _ _ hpv]
        exact hinv p (by omega)
      · have hpe : p = v._size.toNat := by omega
        rw [hpe]
        exact readElem_storeElem_same w _ _ _ hval hin

/-! ## Expand: the new capacity -/

/-- C1 (as amended): for every container state with `size ≥ capacity`, `capacity ≥ 0` and
`capacity < 2^30`, `Expand` returns and sets the new capacity to exactly
`2 * max(DEFAULT_CAPACITY, old capacity)`, with `DEFAULT_CAPACITY = 3`. -/
theorem C1_Expand_capacity_is_double_of_max (w : Nat) (fresh : Nat → Byte) (v : Vector)
    (_hcap : 0 ≤ v._capacity) (hfull : v._capacity ≤ v._size)
    (hlt : v._capacity < 1073741824) :
    (Vector.Expand w fresh v).exit = Exit.returned ∧
    (Vector.Expand w fresh v).self._capacity = 2 * max DEFAULT_CAPACITY v._capacity ∧
    DEFAULT_CAPACITY = 3 := by
  rw [Expand_grown w fresh v hfull hlt]
  exact ⟨rfl, rfl, rfl⟩

/-- C1, witness: the full `Vector<int>` of capacity 2 is expanded to capacity
`2 * max(3, 2) = 6`. -/
theorem C1_Expand_capacity_witness :
    (0 ≤ fullInts2._capacity ∧ fullInts2._capacity ≤ fullInts2._size ∧
      fullInts2._capacity < 1073741824) ∧
    (Vector.Expand 4 (fun _ => 0) fullInts2).exit = Exit.returned ∧
    (Vector.Expand 4 (fun _ => 0) fullInts2).self._capacity
      = 2 * max DEFAULT_CAPACITY fullInts2._capacity ∧
    DEFAULT_CAPACITY = 3 :=
  ⟨by decide, C1_Expand_capacity_is_double_of_max 4 (fun _ => 0) fullInts2
    (by decide) (by decide) (by decide)⟩

/-- C1, counterexample: old capacities 0 and 2 both give 6, not `max(3, 2 * old)` = 3
and 4; and from old capacity `2^30` the stored capacity is `-2^31`, not `2^31`. -/
theorem C1_Expand_capacity_counterexample :
    ((Vector.Expand 4 (fun _ => 0) emptyInts).self._capacity = 6 ∧
      (Vector.Expand 4 (fun _ => 0) emptyInts).self._capacity
        ≠ max DEFAULT_CAPACITY (2 * emptyInts._capacity)) ∧
    ((Vector.Expand 4 (fun _ => 0) fullInts2).self._capacity = 6 ∧
      (Vector.Expand 4 (fun _ => 0) fullInts2).self._capacity
        ≠ max DEFAULT_CAPACITY (2 * fullInts2._capacity)) ∧
    ((Vector.Expand 1 (fun _ => 0) fullChars30).self._capacity = -2147483648 ∧
      (Vector.Expand 1 (fun _ => 0) fullChars30).self._capacity
        ≠ max DEFAULT_CAPACITY (2 * fullChars30._capacity)) := by
  rw [Expand_grown 4 _ emptyInts (by decide) (by decide),
    Expand_grown 4 _ fullInts2 (by decide) (by decide),
    Expand_overflow 1 _ fullChars30 (le_refl _) (le_refl _) (by decide)]
  refine ⟨⟨?_, ?_⟩, ⟨?_, ?_⟩, ⟨?_, ?_⟩⟩ <;>
    simp only [emptyInts, fullInts2, fullChars30, DEFAULT_CAPACITY] <;> decide

/-- C3 (as amended): for every container state with `0 ≤ size == capacity` and
`capacity < 2^30`, `Expand` returns with a strictly larger capacity:
new capacity ≥ old capacity + 1 and new capacity ≥ old size + 1. -/
theorem C3_Expand_strictly_grows (w : Nat) (fresh : Nat → Byte) (v : Vector)
    (_hsize : 0 ≤ v._size) (hfull : v._size = v._capacity)
    (hlt : v._capacity < 1073741824) :
    (Vector.Expand w fresh v).exit = Exit.returned ∧
    v._capacity + 1 ≤ (Vector.Expand w fresh v).self._capacity ∧
    v._size + 1 ≤ (Vector.Expand w fresh v).self._capacity := by
  rw [Expand_grown w fresh v (le_of_eq hfull.symm) hlt]
  refine ⟨rfl, ?_, ?_⟩ <;> simp only [DEFAULT_CAPACITY] <;> omega

/-- C3, witness: the full `Vector<int>` holding 1, 2, 3. -/
theorem C3_Expand_strictly_grows_witness :
    (0 ≤ fullInts3._size ∧ fullInts3._size = fullInts3._capacity ∧
      fullInts3._capacity < 1073741824) ∧
    (Vector.Expand 4 (fun _ => 0) fullInts3).exit = Exit.returned ∧
    fullInts3._capacity + 1 ≤ (Vector.Expand 4 (fun _ => 0) fullInts3).self._capacity ∧
    fullInts3._size + 1 ≤ (Vector.Expand 4 (fun _ => 0) fullInts3).self._capacity :=
  ⟨by decide, C3_Expand_strictly_grows 4 (fun _ => 0) fullInts3
    (by decide) (by decide) (by decide)⟩

/-- C3, counterexample: on the full `Vector<char>` of `2^30` elements `Expand` does not
return (`new` throws) and the capacity it leaves, `-2^31`, is not larger than the old. -/
theorem C3_Expand_strictly_grows_counterexample :
    (0 ≤ fullChars30._size ∧ fullChars30._size = fullChars30._capacity) ∧
    (Vector.Expand 1 (fun _ => 0) fullChars30).exit = Exit.bad_array_new_length ∧
    (Vector.Expand 1 (fun _ => 0) fullChars30).self._capacity = -2147483648 ∧
    ¬ (fullChars30._capacity + 1
        ≤ (Vector.Expand 1 (fun _ => 0) fullChars30).self._capacity) := by
  rw [Expand_overflow 1 _ fullChars30 (le_refl _) (le_refl _) (by decide)]
  refine ⟨⟨?_, rfl⟩, rfl, ?_, ?_⟩ <;> simp only [fullChars30] <;> decide

/-- C4: for every container state with `size < capacity`, `Expand` is a no-op: it
returns, and capacity, size and every buffer element are unchanged. -/
theorem C4_Expand_noop_below_capacity (w : Nat) (fresh : Nat → Byte) (v : Vector)
    (h : v._size < v._capacity) :
    (Vector.Expand w fresh v).exit = Exit.returned ∧
    (Vector.Expand w fresh v).self._capacity = v._capacity ∧
    (Vector.Expand w fresh v).self._size = v._size ∧
    (Vector.Expand w fresh v).self._element = v._element ∧
    ∀ r : Nat, (Vector.Expand w fresh v).self.elemAt w r = v.elemAt w r := by
  rw [Expand_idle w fresh v h]
  exact ⟨rfl, rfl, rfl, rfl, fun _ => rfl⟩

/-- C4, witness: a `Vector<int>` with one element in three slots. -/
theorem C4_Expand_noop_witness :
    roomyInts._size < roomyInts._capacity ∧
    (Vector.Expand 4 (fun _ => 0) roomyInts).exit = Exit.returned ∧
    (Vector.Expand 4 (fun _ => 0) roomyInts).self._capacity = roomyInts._capacity ∧
    (Vector.Expand 4 (fun _ => 0) roomyInts).self._size = roomyInts._size ∧
    (Vector.Expand 4 (fun _ => 0) roomyInts).self._element = roomyInts._element ∧
    ∀ r : Nat, (Vector.Expand 4 (fun _ => 0) roomyInts).self.elemAt 4 r
      = roomyInts.elemAt 4 r :=
  ⟨by decide, C4_Expand_noop_below_capacity 4 (fun _ => 0) roomyInts (by decide)⟩

/-! ## Expand: the elements -/

/-- C2, the code at a failing input: on the full `Vector<int>` holding 1, 2, 3 `Expand`
returns with `memcpy` having copied `_size = 3` bytes, not 3 elements.  Whatever the
new block held (`fresh`), rank 0 keeps only its first three bytes and ranks 1 and 2
are the bytes the allocation left there; with a block filled with `0xCD` rank 1 no
longer holds 2. -/
theorem C2_Expand_copies_size_bytes (fresh : Nat → Byte) :
    (Vector.Expand 4 fresh fullInts3).exit = Exit.returned ∧
    (Vector.Expand 4 fresh fullInts3).self._size = 3 ∧
    fullInts3.elemAt 4 1 = [2, 0, 0, 0] ∧
    (Vector.Expand 4 fresh fullInts3).self.elemAt 4 0 = [1, 0, 0, fresh 3] ∧
    (Vector.Expand 4 fresh fullInts3).self.elemAt 4 1
      = [fresh 4, fresh 5, fresh 6, fresh 7] ∧
    (Vector.Expand 4 fresh fullInts3).self.elemAt 4 2
      = [fresh 8, fresh 9, fresh 10, fresh 11] ∧
    (Vector.Expand 4 (fun _ => 205) fullInts3).self.elemAt 4 1 ≠ fullInts3.elemAt 4 1 := by
  rw [Expand_grown 4 fresh fullInts3 (by decide) (by decide),
    Expand_grown 4 _ fullInts3 (by decide) (by decide)]
  exact ⟨rfl, rfl, rfl, rfl, rfl, rfl, by decide⟩

/-! ## The invariant `size ≤ capacity` and the constructor -/

theorem ctor_of_nonneg (w : Nat) (fresh : Nat → Byte) (cap size : Int)
    (initVal : List Byte) (hcap : 0 ≤ cap) :
    Vector.ctor w fresh cap size initVal =
      some (Vector.ctorLoop w size initVal
        { _capacity := cap, _size := 0, _element := newArray w fresh cap }) := by
  rw [Vector.ctor, if_neg (by omega)]

/-- C5 (as amended): for every argument triple with `0 ≤ cap` and `size ≤ cap` the
constructor `Vector(cap, size, initVal)` produces a container with `size ≤ capacity`,
and `Expand` preserves `size ≤ capacity` from every state that satisfies it, unless the
container is full with a capacity of `2^30` or more (that is: from every such state with
`size < capacity` or `capacity < 2^30`). -/
theorem C5_size_le_capacity (w : Nat) (fresh : Nat → Byte) (cap size : Int)
    (initVal : List Byte) (v : Vector)
    (hcap : 0 ≤ cap) (hsize : size ≤ cap)
    (hinv : v._size ≤ v._capacity)
    (hlt : v._size < v._capacity ∨ v._capacity < 1073741824) :
    (∃ c, Vector.ctor w fresh cap size initVal = some c ∧ c._size ≤ c._capacity) ∧
    (Vector.Expand w fresh v).self._size ≤ (Vector.Expand w fresh v).self._capacity := by
  constructor
  · rw [ctor_of_nonneg w fresh cap size initVal hcap]
    refine ⟨_, rfl, ?_⟩
    obtain ⟨h1, h2⟩ := ctorLoop_fields w size initVal _
      { _capacity := cap, _size := 0, _element := newArray w fresh cap } rfl
    rw [h1, h2]
    simp only []
    omega
  · by_cases h : v._size < v._capacity
    · rw [Expand_idle w fresh v h]
      exact hinv
    · have hlt2 : v._capacity < 1073741824 := by
        rcases hlt with h3 | h3
        · exact absurd h3 h
        · exact h3
      rw [Expand_grown w fresh v (by omega) hlt2]
      simp only [DEFAULT_CAPACITY]
      omega

/-- C5, witness: `Vector<int>(3, 2, 0)` and `Expand` on the full container 1, 2, 3. -/
theorem C5_size_le_capacity_witness :
    ((0 : Int) ≤ 3 ∧ (2 : Int) ≤ 3 ∧ fullInts3._size ≤ fullInts3._capacity ∧
      (fullInts3._size < fullInts3._capacity ∨ fullInts3._capacity < 1073741824)) ∧
    (∃ c, Vector.ctor 4 (fun _ => 0) 3 2 [0, 0, 0, 0] = some c ∧ c._size ≤ c._capacity) ∧
    (Vector.Expand 4 (fun _ => 0) fullInts3).self._size
      ≤ (Vector.Expand 4 (fun _ => 0) fullInts3).self._capacity :=
  ⟨by decide, C5_size_le_capacity 4 (fun _ => 0) 3 2 [0, 0, 0, 0] fullInts3
    (by decide) (by decide) (by decide) (by decide)⟩

/-- C5, counterexample: `Vector<int>(3, 5, 0)` is built with `_size = 5` over
`_capacity = 3`; and `Expand` takes the full `Vector<char>` of `2^30` elements, which
satisfies `size ≤ capacity`, to a state with `_capacity = -2^31` below `_size`. -/
theorem C5_size_le_capacity_counterexample :
    (∃ c, Vector.ctor 4 (fun _ => 0) 3 5 [0, 0, 0, 0] = some c ∧
      c._capacity = 3 ∧ c._size = 5 ∧ ¬ c._size ≤ c._capacity) ∧
    (fullChars30._size ≤ fullChars30._capacity ∧
      ¬ (Vector.Expand 1 (fun _ => 0) fullChars30).self._size
        ≤ (Vector.Expand 1 (fun _ => 0) fullChars30).self._capacity) := by
  constructor
  · rw [ctor_of_nonneg 4 _ 3 5 _ (by decide)]
    obtain ⟨h1, h2⟩ := ctorLoop_fields 4 5 [0, 0, 0, 0] _
      { _capacity := 3, _size := 0, _element := newArray 4 (fun _ => 0) 3 } rfl
    refine ⟨_, rfl, h1, by rw [h2]; decide, ?_⟩
    rw [h1, h2]
    decide
  · rw [Expand_overflow 1 _ fullChars30 (le_refl _) (le_refl _) (by decide)]
    refine ⟨le_refl _, ?_⟩
    simp only [fullChars30]
    decide

/-- C6: for every `cap`, `size`, `initVal` with `0 ≤ size ≤ cap` (`initVal` an object of
`w` bytes), the constructor yields a container with `capacity == cap`,
`Size() == size` and every rank `r` in `[0, size)` holding `initVal`; with the default
arguments it yields capacity `DEFAULT_CAPACITY = 3` and `Size() == 0`. -/
theorem C6_ctor_fills (w : Nat) (fresh : Nat → Byte) (cap size : Int)
    (initVal : List Byte) (hval : initVal.length = w)
    (h0 : 0 ≤ size) (hsize : size ≤ cap) :
    (∃ c, Vector.ctor w fresh cap size initVal = some c ∧
      c._capacity = cap ∧ c.Size = size ∧
      ∀ r : Nat, (r : Int) < size → c.elemAt w r = initVal) ∧
    (∃ d, Vector.ctorDefault w fresh = some d ∧
      d._capacity = DEFAULT_CAPACITY ∧ DEFAULT_CAPACITY = 3 ∧ d.Size = 0) := by
  constructor
  · rw [ctor_of_nonneg w fresh cap size initVal (by omega)]
    obtain ⟨h1, h2⟩ := ctorLoop_fields w size initVal _
      { _capacity := cap, _size := 0, _element := newArray w fresh cap } rfl
    refine ⟨_, rfl, h1, ?_, ?_⟩
    · rw [Vector.Size, h2]
      simp only []
      omega
    · intro r hr
      refine ctorLoop_fill w size initVal hval _ _ rfl (le_refl _) ?_ ?_ r hr
      · simp only []
        rw [length_newArray]
        exact Nat.mul_le_mul_right w (Int.toNat_le_toNat hsize)
      · intro q hq
        simp only [] at hq
        omega
  · rw [Vector.ctorDefault, ctor_of_nonneg w fresh _ _ _ (by decide)]
    obtain ⟨h1, h2⟩ := ctorLoop_fields w 0 (List.replicate w 0) _
      { _capacity := DEFAULT_CAPACITY, _size := 0
        _element := newArray w fresh DEFAULT_CAPACITY } rfl
    refine ⟨_, rfl, h1, rfl, ?_⟩
    rw [Vector.Size, h2]
    rfl

/-- C6, witness: `Vector<int>(3, 2, 7)`. -/
theorem C6_ctor_fills_witness :
    (([7, 0, 0, 0] : List Byte).length = 4 ∧ (0 : Int) ≤ 2 ∧ (2 : Int) ≤ 3) ∧
    (∃ c, Vector.ctor 4 (fun _ => 0) 3 2 [7, 0, 0, 0] = some c ∧
      c._capacity = 3 ∧ c.Size = 2 ∧
      ∀ r : Nat, (r : Int) < 2 → c.elemAt 4 r = [7, 0, 0, 0]) ∧
    (∃ d, Vector.ctorDefault 4 (fun _ => 0) = some d ∧
      d._capacity = DEFAULT_CAPACITY ∧ DEFAULT_CAPACITY = 3 ∧ d.Size = 0) :=
  ⟨by decide, C6_ctor_fills 4 (fun _ => 0) 3 2 [7, 0, 0, 0] rfl (by decide) (by decide)⟩

/-! ## CopyFrom, copy construction and assignment -/

theorem length_readElem (w : Nat) (buf : List Byte) (r : Nat)
    (h : (r + 1) * w ≤ buf.length) : (readElem w buf r).length = w := by
  have h2 : (r + 1) * w = r * w + w := by ring
  unfold readElem
  rw [List.length_take, List.length_drop]
  omega

theorem length_copyElems (w : Nat) (src : List Byte) (lo : Nat) :
    ∀ (n : Nat) (dst : List Byte), (lo + n) * w ≤ src.length →
      (Vector.copyElems w src lo n dst).length = dst.length := by
  intro n
  induction n with
  | zero => intro dst _; rfl
  | succ n ih =>
    intro dst h
    rw [Vector.copyElems]
    rw [length_storeElem w _ _ _ (length_readElem w src (lo + n) h)]
    exact ih dst (le_trans (Nat.mul_le_mul_right w (by omega)) h)

/-- The element-wise copy puts source rank `lo + i` at rank `i`, for every `i < n`. -/
theorem readElem_copyElems (w : Nat) (src : List Byte) (lo : Nat) :
    ∀ (n : Nat) (dst : List Byte), n * w ≤ dst.length → (lo + n) * w ≤ src.length →
      ∀ i, i < n → readElem w (Vector.copyElems w src lo n dst) i = readElem w src (lo + i) := by
  intro n
  induction n with
  | zero => intro dst _ _ i hi; omega
  | succ n ih =>
    intro dst hd hs i hi
    have hs2 : (lo + n) * w ≤ src.length :=
      le_trans (Nat.mul_le_mul_right w (by omega)) hs
    have hd2 : n * w ≤ dst.length := le_trans (Nat.mul_le_mul_right w (by omega)) hd
    rw [Vector.copyElems]
    by_cases hin : i < n
    · rw [readElem_storeElem_below w _ _ _ _ hin]
      exact ih dst hd2 hs2 i hin
    · have hie : i = n := by omega
      rw [hie]
      exact readElem_storeElem_same w _ _ _ (length_readElem w src (lo + n) hs)
        (by rw [length_copyElems w src lo n dst hs2]; exact hd)

theorem CopyFrom_in_range (w : Nat) (fresh : Nat → Byte) (self : Vector)
    (src : List Byte) (lo hi : Int) (h0 : 0 ≤ lo) (h1 : lo ≤ hi)
    (h2 : hi.toNat * w ≤ src.length) :
    Vector.CopyFrom w fresh self src lo hi =
      ⟨Exit.returned,
        { _capacity := 2 * (hi - lo)
          _size := hi - lo
          _element :=
            Vector.copyElems w src lo.toNat (hi - lo).toNat (newArray w fresh (2 * (hi - lo))) }⟩ := by
  rw [Vector.CopyFrom, if_pos ⟨h0, h1, h2⟩]

/-- The block `CopyFrom` leaves: `2 * (hi - lo)` elements, the first `hi - lo` of them
the source elements from rank `lo` on. -/
theorem CopyFrom_block (w : Nat) (fresh : Nat → Byte) (src : List Byte) (lo hi : Int)
    (h0 : 0 ≤ lo) (h1 : lo ≤ hi) (h2 : hi.toNat * w ≤ src.length) :
    (Vector.copyElems w src lo.toNat (hi - lo).toNat (newArray w fresh (2 * (hi - lo)))).length
      = (2 * (hi - lo)).toNat * w ∧
    ∀ i : Nat, (i : Int) < hi - lo →
      readElem w (Vector.copyElems w src lo.toNat (hi - lo).toNat
        (newArray w fresh (2 * (hi - lo)))) i = readElem w src (lo.toNat + i) := by
  have hsum : lo.toNat + (hi - lo).toNat = hi.toNat := by omega
  have hs : (lo.toNat + (hi - lo).toNat) * w ≤ src.length := by rw [hsum]; exact h2
  have hd : (hi - lo).toNat * w ≤ (newArray w fresh (2 * (hi - lo))).length := by
    rw [length_newArray]
    exact Nat.mul_le_mul_right w (by omega)
  refine ⟨?_, fun i hi2 => ?_⟩
  · rw [length_copyElems w src lo.toNat _ _ hs, length_newArray]
  · exact readElem_copyElems w src lo.toNat _ _ hd hs i (by omega)

/-- C7 (on `CopyFrom` as modelled from the spec): for every source container (its block
holding its `size` live elements) and every `lo`, `hi` with `0 ≤ lo ≤ hi ≤ source.size`,
the container constructed from the sub-range `[lo, hi)` exists, has `hi - lo` elements
and holds at each rank `i` in `[0, hi - lo)` exactly the source element at rank
`lo + i`, for every element width `w` and also when `lo > 0`. -/
theorem C7_copy_of_subrange_round_trip (w : Nat) (fresh : Nat → Byte) (raw v : Vector)
    (lo hi : Int) (h0 : 0 ≤ lo) (h1 : lo ≤ hi) (h2 : hi ≤ v._size)
    (hblock : v._size.toNat * w ≤ v._element.length) :
    ∃ c, Vector.ctorCopyRange w fresh raw v lo hi = some c ∧ c.Size = hi - lo ∧
      ∀ i : Nat, (i : Int) < hi - lo → c.elemAt w i = v.elemAt w (lo.toNat + i) := by
  have hsrc : hi.toNat * w ≤ v._element.length :=
    le_trans (Nat.mul_le_mul_right w (Int.toNat_le_toNat h2)) hblock
  rw [Vector.ctorCopyRange, CopyFrom_in_range w fresh raw _ lo hi h0 h1 hsrc]
  exact ⟨_, rfl, rfl, (CopyFrom_block w fresh v._element lo hi h0 h1 hsrc).2⟩

/-- C7, witness: the sub-range `[1, 3)` of the `Vector<int>` holding 10, 20, 30. -/
theorem C7_copy_of_subrange_witness :
    ((0 : Int) ≤ 1 ∧ (1 : Int) ≤ 3 ∧ 3 ≤ srcInts._size ∧
      srcInts._size.toNat * 4 ≤ srcInts._element.length ∧
      srcInts.elemAt 4 1 = [20, 0, 0, 0] ∧ srcInts.elemAt 4 2 = [30, 0, 0, 0]) ∧
    ∃ c, Vector.ctorCopyRange 4 (fun _ => 205) emptyInts srcInts 1 3 = some c ∧
      c.Size = 3 - 1 ∧
      ∀ i : Nat, (i : Int) < 3 - 1 → c.elemAt 4 i = srcInts.elemAt 4 ((1 : Int).toNat + i) :=
  ⟨by decide, C7_copy_of_subrange_round_trip 4 (fun _ => 205) emptyInts srcInts 1 3
    (by decide) (by decide) (by decide) (by decide)⟩

/-- C9: for every empty container (`size == 0`), every target `t` and every ranged
search, the whole-container `Search(t)` returns -1, which is `lo - 1` for `lo = 0`; the
ranged search is not consulted. -/
theorem C9_Search_empty (searchRange : Vector → List Byte → Int → Int → Int)
    (v : Vector) (t : List Byte) (h : v._size = 0) :
    Vector.Search searchRange v t = -1 ∧ Vector.Search searchRange v t = 0 - 1 := by
  have h0 : v._size ≤ 0 := by omega
  rw [Vector.Search, if_pos h0]
  exact ⟨rfl, rfl⟩

/-- C9, witness: the empty `Vector<int>` with a ranged search that would answer 42. -/
theorem C9_Search_empty_witness :
    emptyInts._size = 0 ∧
    Vector.Search (fun _ _ _ _ => 42) emptyInts [5, 0, 0, 0] = -1 ∧
    Vector.Search (fun _ _ _ _ => 42) emptyInts [5, 0, 0, 0] = 0 - 1 :=
  ⟨rfl, C9_Search_empty (fun _ _ _ _ => 42) emptyInts [5, 0, 0, 0] rfl⟩

/-- C10: for every container state, `Empty()` returns true if and only if
`Size() == 0`, and `Size()` returns the `_size` field.  Both are `const` queries: they
yield a value and no new state. -/
theorem C10_Size_and_Empty (v : Vector) :
    (v.Empty = true ↔ v.Size = 0) ∧ v.Size = v._size := by
  simp [Vector.Empty, Vector.Size]

/-- C11: the whole-container overloads act on exactly the full live range: for every
container and every ranged implementation, `Sort()` is `Sort(0, Size())`, `Unsort()` is
`Unsort(0, Size())`, `Find(t)` is `Find(t, 0, Size())`, and for a non-empty container
(`0 ≤ size`, `Empty()` false) `Search(t)` is `Search(t, 0, Size())`. -/
theorem C11_whole_container_overloads {ρ σ : Type}
    (sortRange : Vector → Int → Int → ρ) (unsortRange : Vector → Int → Int → σ)
    (findRange searchRange : Vector → List Byte → Int → Int → Int)
    (v : Vector) (t : List Byte) :
    Vector.SortAll sortRange v = sortRange v 0 v.Size ∧
    Vector.Unsort unsortRange v = unsortRange v 0 v.Size ∧
    Vector.Find findRange v t = findRange v t 0 v.Size ∧
    (0 ≤ v._size → v.Empty = false →
      Vector.Search searchRange v t = searchRange v t 0 v.Size) := by
  refine ⟨rfl, rfl, rfl, fun h0 hne => ?_⟩
  have hsize : ¬ v._size ≤ 0 := by
    have hz : v._size ≠ 0 := by simpa [Vector.Empty] using hne
    omega
  rw [Vector.Search, if_neg hsize]
  rfl

/-- C11, witness: the empty `Vector<int>` for `Sort`, `Unsort` and `Find`, and the
`Vector<int>` holding 10, 20, 30 for `Search`, with ranged operations that report the
range they are given. -/
theorem C11_whole_container_overloads_witness :
    (0 ≤ srcInts._size ∧ srcInts.Empty = false) ∧
    Vector.SortAll (fun _ lo hi => (lo, hi)) emptyInts = ((0 : Int), emptyInts.Size) ∧
    Vector.Unsort (fun _ lo hi => (lo, hi)) emptyInts = ((0 : Int), emptyInts.Size) ∧
    Vector.Find (fun _ _ lo hi => 7 * lo + hi + 5) emptyInts [20, 0, 0, 0]
      = 7 * 0 + emptyInts.Size + 5 ∧
    Vector.Search (fun _ _ lo hi => 7 * lo + hi + 5) srcInts [20, 0, 0, 0]
      = 7 * 0 + srcInts.Size + 5 :=
  ⟨by decide,
    (C11_whole_container_overloads (fun _ lo hi => (lo, hi)) (fun _ lo hi => (lo, hi))
      (fun _ _ lo hi => 7 * lo + hi + 5) (fun _ _ lo hi => 7 * lo + hi + 5)
      emptyInts [20, 0, 0, 0]).1,
    (C11_whole_container_overloads (fun _ lo hi => (lo, hi)) (fun _ lo hi => (lo, hi))
      (fun _ _ lo hi => 7 * lo + hi + 5) (fun _ _ lo hi => 7 * lo + hi + 5)
      emptyInts [20, 0, 0, 0]).2.1,
    (C11_whole_container_overloads (fun _ lo hi => (lo, hi)) (fun _ lo hi => (lo, hi))
      (fun _ _ lo hi => 7 * lo + hi + 5) (fun _ _ lo hi => 7 * lo + hi + 5)
      emptyInts [20, 0, 0, 0]).2.2.1,
    (C11_whole_container_overloads (fun _ lo hi => (lo, hi)) (fun _ lo hi => (lo, hi))
      (fun _ _ lo hi => 7 * lo + hi + 5) (fun _ _ lo hi => 7 * lo + hi + 5)
      srcInts [20, 0, 0, 0]).2.2.2 (by decide) (by decide)⟩

/-! ## Expand: room, idempotence, wrap-around, frame -/

/-- The capacity `Expand` stores when growth is triggered, whatever the exit. -/
theorem Expand_capacity_of_full (w : Nat) (fresh : Nat → Byte) (v : Vector)
    (hfull : ¬ v._size < v._capacity) :
    (Vector.Expand w fresh v).self._capacity
      = wrap32 (2 * max DEFAULT_CAPACITY v._capacity) := by
  have hcap : (if v._capacity < DEFAULT_CAPACITY then DEFAULT_CAPACITY
      else v._capacity) * 2 = 2 * max DEFAULT_CAPACITY v._capacity := by
    unfold DEFAULT_CAPACITY
    split <;> omega
  simp only [Vector.Expand, hfull, if_false, hcap]
  split <;> rfl

/-- C13: for every container state with `0 ≤ size ≤ capacity`, when the doubling (if
one is performed) does not overflow `int`, `Expand` returns and the container has
strictly spare room afterwards: `size < capacity`, i.e. `size + 1 ≤ capacity`. -/
theorem C13_Expand_leaves_spare_room (w : Nat) (fresh : Nat → Byte) (v : Vector)
    (_h0 : 0 ≤ v._size) (hinv : v._size ≤ v._capacity)
    (hno : ¬ v._size < v._capacity →
      2 * max DEFAULT_CAPACITY v._capacity < 2147483648) :
    (Vector.Expand w fresh v).exit = Exit.returned ∧
    (Vector.Expand w fresh v).self._size < (Vector.Expand w fresh v).self._capacity ∧
    (Vector.Expand w fresh v).self._size + 1 ≤ (Vector.Expand w fresh v).self._capacity := by
  by_cases h : v._size < v._capacity
  · rw [Expand_idle w fresh v h]
    exact ⟨rfl, h, h⟩
  · have hlt : v._capacity < 1073741824 := by
      have := hno h
      unfold DEFAULT_CAPACITY at this
      omega
    rw [Expand_grown w fresh v (by omega) hlt]
    refine ⟨rfl, ?_, ?_⟩ <;> simp only [DEFAULT_CAPACITY] <;> omega

/-- C13, witness: the full `Vector<int>` holding 1, 2, 3. -/
theorem C13_Expand_leaves_spare_room_witness :
    (0 ≤ fullInts3._size ∧ fullInts3._size ≤ fullInts3._capacity ∧
      2 * max DEFAULT_CAPACITY fullInts3._capacity < 2147483648) ∧
    (Vector.Expand 4 (fun _ => 0) fullInts3).exit = Exit.returned ∧
    (Vector.Expand 4 (fun _ => 0) fullInts3).self._size
      < (Vector.Expand 4 (fun _ => 0) fullInts3).self._capacity ∧
    (Vector.Expand 4 (fun _ => 0) fullInts3).self._size + 1
      ≤ (Vector.Expand 4 (fun _ => 0) fullInts3).self._capacity :=
  ⟨by decide, C13_Expand_leaves_spare_room 4 (fun _ => 0) fullInts3
    (by decide) (by decide) (fun _ => by decide)⟩

/-- C14: `Expand` is idempotent on well-formed states: for every container state with
`0 ≤ size ≤ capacity`, when the doubling (if one is performed) does not overflow
`int`, a second `Expand` (whatever the allocator would hand out, `fresh2`) returns and
leaves the state of the first: same capacity, size and elements. -/
theorem C14_Expand_idempotent (w : Nat) (fresh fresh2 : Nat → Byte) (v : Vector)
    (_h0 : 0 ≤ v._size) (hinv : v._size ≤ v._capacity)
    (hno : ¬ v._size < v._capacity →
      2 * max DEFAULT_CAPACITY v._capacity < 2147483648) :
    Vector.Expand w fresh2 (Vector.Expand w fresh v).self
      = ⟨Exit.returned, (Vector.Expand w fresh v).self⟩ ∧
    (Vector.Expand w fresh2 (Vector.Expand w fresh v).self).self._capacity
      = (Vector.Expand w fresh v).self._capacity ∧
    (Vector.Expand w fresh2 (Vector.Expand w fresh v).self).self._size
      = (Vector.Expand w fresh v).self._size ∧
    ∀ r : Nat, (Vector.Expand w fresh2 (Vector.Expand w fresh v).self).self.elemAt w r
      = (Vector.Expand w fresh v).self.elemAt w r := by
  have hroom : (Vector.Expand w fresh v).self._size
      < (Vector.Expand w fresh v).self._capacity := by
    by_cases h : v._size < v._capacity
    · rw [Expand_idle w fresh v h]
      exact h
    · have hlt : v._capacity < 1073741824 := by
        have := hno h
        unfold DEFAULT_CAPACITY at this
        omega
      rw [Expand_grown w fresh v (by omega) hlt]
      simp only [DEFAULT_CAPACITY]
      omega
  rw [Expand_idle w fresh2 _ hroom]
  exact ⟨rfl, rfl, rfl, fun _ => rfl⟩

/-- C14, witness: the full `Vector<int>` holding 1, 2, 3, expanded twice. -/
theorem C14_Expand_idempotent_witness :
    (0 ≤ fullInts3._size ∧ fullInts3._size ≤ fullInts3._capacity ∧
      2 * max DEFAULT_CAPACITY fullInts3._capacity < 2147483648) ∧
    Vector.Expand 4 (fun _ => 205) (Vector.Expand 4 (fun _ => 0) fullInts3).self
      = ⟨Exit.returned, (Vector.Expand 4 (fun _ => 0) fullInts3).self⟩ ∧
    (Vector.Expand 4 (fun _ => 205) (Vector.Expand 4 (fun _ => 0) fullInts3).self).self._capacity
      = (Vector.Expand 4 (fun _ => 0) fullInts3).self._capacity ∧
    (Vector.Expand 4 (fun _ => 205) (Vector.Expand 4 (fun _ => 0) fullInts3).self).self._size
      = (Vector.Expand 4 (fun _ => 0) fullInts3).self._size ∧
    ∀ r : Nat,
      (Vector.Expand 4 (fun _ => 205) (Vector.Expand 4 (fun _ => 0) fullInts3).self).self.elemAt 4 r
        = (Vector.Expand 4 (fun _ => 0) fullInts3).self.elemAt 4 r :=
  ⟨by decide, C14_Expand_idempotent 4 (fun _ => 0) (fun _ => 205) fullInts3
    (by decide) (by decide) (fun _ => by decide)⟩

/-- C15: with `_capacity` a signed 32-bit integer and `_capacity <<= 1` doubling modulo
`2^32`, `Expand` on a full container (`0 ≤ size == capacity`) stores a strictly larger
capacity if and only if the old capacity is below `2^30`; for every old capacity in
`[2^30, 2^31)` the capacity stored by `Expand` is negative. -/
theorem C15_Expand_wraps_from_two_pow_30 (w : Nat) (fresh : Nat → Byte) (v : Vector)
    (h0 : 0 ≤ v._size) (hfull : v._size = v._capacity) :
    (v._capacity < (Vector.Expand w fresh v).self._capacity ↔ v._capacity < 1073741824) ∧
    (1073741824 ≤ v._capacity → v._capacity < 2147483648 →
      (Vector.Expand w fresh v).self._capacity < 0) := by
  rw [Expand_capacity_of_full w fresh v (by omega)]
  unfold wrap32 DEFAULT_CAPACITY
  refine ⟨⟨fun h => ?_, fun h => ?_⟩, fun h1 h2 => ?_⟩ <;> omega

/-- C15, witness: the full `Vector<char>` of `2^30` elements. -/
theorem C15_Expand_wraps_witness :
    (0 ≤ fullChars30._size ∧ fullChars30._size = fullChars30._capacity ∧
      (1073741824 : Int) ≤ fullChars30._capacity ∧ fullChars30._capacity < 2147483648) ∧
    (fullChars30._capacity < (Vector.Expand 1 (fun _ => 0) fullChars30).self._capacity
      ↔ fullChars30._capacity < 1073741824) ∧
    (Vector.Expand 1 (fun _ => 0) fullChars30).self._capacity < 0 :=
  ⟨by decide,
    (C15_Expand_wraps_from_two_pow_30 1 (fun _ => 0) fullChars30 (by decide) rfl).1,
    (C15_Expand_wraps_from_two_pow_30 1 (fun _ => 0) fullChars30 (by decide) rfl).2
      (by decide) (by decide)⟩

/-- C16: for every container state, whether or not growth is triggered and however
`Expand` is left, the `_size` field is unchanged. -/
theorem C16_Expand_keeps_size (w : Nat) (fresh : Nat → Byte) (v : Vector) :
    (Vector.Expand w fresh v).self._size = v._size := by
  simp only [Vector.Expand]
  split_ifs <;> rfl

/-! ## The sort engine: every algorithm sorts its range -/

namespace SortEngine

section Buffers

variable {α : Type}

theorem length_slice (a : Nat → α) (lo hi : Nat) : (slice a lo hi).length = hi - lo := by
  simp [slice]

theorem getElem_slice (a : Nat → α) (lo hi i : Nat) (h : i < (slice a lo hi).length) :
    (slice a lo hi)[i] = a (lo + i) := by
  simp [slice]

theorem mem_slice (a : Nat → α) (lo hi : Nat) (x : α) :
    x ∈ slice a lo hi ↔ ∃ r, lo ≤ r ∧ r < hi ∧ a r = x := by
  simp only [slice, List.mem_map, List.mem_range]
  constructor
  · rintro ⟨i, hi1, rfl⟩
    exact ⟨lo + i, by omega, by omega, rfl⟩
  · rintro ⟨r, h1, h2, rfl⟩
    exact ⟨r - lo, by omega, by congr 1; omega⟩

theorem slice_congr (a b : Nat → α) (lo hi : Nat)
    (h : ∀ r, lo ≤ r → r < hi → b r = a r) : slice b lo hi = slice a lo hi := by
  apply List.map_congr_left
  intro i hi1
  rw [List.mem_range] at hi1
  exact h (lo + i) (by omega) (by omega)

theorem slice_append (a : Nat → α) (lo mi hi : Nat) (h1 : lo ≤ mi) (h2 : mi ≤ hi) :
    slice a lo hi = slice a lo mi ++ slice a mi hi := by
  apply List.ext_getElem
  · simp only [List.length_append, length_slice]; omega
  · intro i h3 h4
    rw [getElem_slice]
    rw [length_slice] at h3
    by_cases h : i < mi - lo
    · rw [List.getElem_append_left (by rw [length_slice]; exact h), getElem_slice]
    · rw [List.getElem_append_right (by rw [length_slice]; omega), getElem_slice,
        length_slice]
      congr 1; omega

theorem slice_eq_cons (a : Nat → α) (lo hi : Nat) (h : lo < hi) :
    slice a lo hi = a lo :: slice a (lo + 1) hi := by
  apply List.ext_getElem
  · simp only [List.length_cons, length_slice]; omega
  · intro i h3 h4
    rw [getElem_slice]
    cases i with
    | zero => simp
    | succ i =>
      rw [List.getElem_cons_succ, getElem_slice]
      congr 1; omega

theorem slice_eq_concat (a : Nat → α) (lo hi : Nat) (h : lo < hi) :
    slice a lo hi = slice a lo (hi - 1) ++ [a (hi - 1)] := by
  rw [slice_append a lo (hi - 1) hi (by omega) (by omega)]
  congr 1
  rw [slice_eq_cons a (hi - 1) hi (by omega)]
  have : slice a (hi - 1 + 1) hi = [] := by
    apply List.eq_nil_of_length_eq_zero
    rw [length_slice]; omega
  rw [this]

theorem slice_writeBack (a : Nat → α) (lo hi : Nat) (l : List α)
    (hl : l.length = hi - lo) : slice (writeBack a lo l) lo hi = l := by
  apply List.ext_getElem
  · rw [length_slice, hl]
  · intro i h3 h4
    rw [getElem_slice]
    simp only [writeBack, Nat.le_add_right, if_true, Nat.add_sub_cancel_left]
    rw [List.getD_eq_getElem _ _ h4]

theorem writeBack_outside (a : Nat → α) (lo hi : Nat) (l : List α)
    (hl : l.length = hi - lo) : SameOutside a (writeBack a lo l) lo hi := by
  intro r hr
  simp only [writeBack]
  split
  · rw [List.getD_eq_default]
    omega
  · rfl

theorem swapAt_eq_comp (a : Nat → α) (i j : Nat) :
    swapAt a i j = fun r => a (Equiv.swap i j r) := by
  funext r
  simp only [swapAt, Equiv.swap_apply_def]
  split
  · rfl
  · split <;> rfl

theorem slice_swapAt_perm (a : Nat → α) (lo hi i j : Nat)
    (hi1 : lo ≤ i) (hi2 : i < hi) (hj1 : lo ≤ j) (hj2 : j < hi) :
    (slice (swapAt a i j) lo hi).Perm (slice a lo hi) := by
  have hR : ∀ b : Nat → α, slice b lo hi = (List.range' lo (hi - lo)).map b := by
    intro b
    rw [slice, List.range'_eq_map_range, List.map_map]
    rfl
  rw [hR, hR, swapAt_eq_comp]
  have hcomp : (List.range' lo (hi - lo)).map (fun r => a (Equiv.swap i j r))
      = ((List.range' lo (hi - lo)).map (Equiv.swap i j)).map a := by
    rw [List.map_map]; rfl
  rw [hcomp]
  apply List.Perm.map
  rw [List.perm_ext_iff_of_nodup
    ((List.nodup_range' lo (hi - lo)).map (Equiv.swap i j).injective)
    (List.nodup_range' lo (hi - lo))]
  intro x
  simp only [List.mem_map, List.mem_range'_1]
  constructor
  · rintro ⟨y, hy, rfl⟩
    rw [Equiv.swap_apply_def]
    split
    · omega
    · split <;> omega
  · intro hx
    refine ⟨Equiv.swap i j x, ?_, Equiv.swap_apply_self i j x⟩
    rw [Equiv.swap_apply_def]
    split
    · omega
    · split <;> omega

theorem swapAt_outside (a : Nat → α) (lo hi i j : Nat)
    (hi1 : lo ≤ i) (hi2 : i < hi) (hj1 : lo ≤ j) (hj2 : j < hi) :
    SameOutside a (swapAt a i j) lo hi := by
  intro r hr
  simp only [swapAt]
  rw [if_neg (by omega), if_neg (by omega)]

theorem Rearranges.refl (a : Nat → α) (lo hi : Nat) : Rearranges a a lo hi :=
  ⟨fun _ _ => rfl, List.Perm.refl _⟩

theorem Rearranges.trans {a b c : Nat → α} {lo hi : Nat}
    (h1 : Rearranges a b lo hi) (h2 : Rearranges b c lo hi) : Rearranges a c lo hi :=
  ⟨fun r hr => (h2.1 r hr).trans (h1.1 r hr), h2.2.trans h1.2⟩

/-- A rearrangement of a sub-range is a rearrangement of the range. -/
theorem Rearranges.mono {a b : Nat → α} {lo hi p q : Nat}
    (h : Rearranges a b p q) (h1 : lo ≤ p) (h2 : p ≤ q) (h3 : q ≤ hi) :
    Rearranges a b lo hi := by
  refine ⟨fun r hr => h.1 r (by omega), ?_⟩
  rw [slice_append a lo p hi h1 (by omega), slice_append b lo p hi h1 (by omega),
    slice_append a p q hi h2 h3, slice_append b p q hi h2 h3,
    slice_congr a b lo p (fun r _ hr => h.1 r (by omega)),
    slice_congr a b q hi (fun r hr _ => h.1 r (by omega))]
  exact (h.2.append_right _).append_left _

theorem swapAt_rearranges (a : Nat → α) (lo hi i j : Nat)
    (hi1 : lo ≤ i) (hi2 : i < hi) (hj1 : lo ≤ j) (hj2 : j < hi) :
    Rearranges a (swapAt a i j) lo hi :=
  ⟨swapAt_outside a lo hi i j hi1 hi2 hj1 hj2, slice_swapAt_perm a lo hi i j hi1 hi2 hj1 hj2⟩

theorem writeBack_rearranges (a : Nat → α) (lo hi : Nat) (l : List α)
    (hp : l.Perm (slice a lo hi)) : Rearranges a (writeBack a lo l) lo hi := by
  have hl : l.length = hi - lo := by rw [hp.length_eq, length_slice]
  exact ⟨writeBack_outside a lo hi l hl, by rw [slice_writeBack a lo hi l hl]; exact hp⟩

theorem swapAt_left (a : Nat → α) (i j : Nat) : swapAt a i j i = a j := by
  simp [swapAt]

theorem swapAt_right (a : Nat → α) (i j : Nat) : swapAt a i j j = a i := by
  simp only [swapAt]
  split
  · rename_i h; rw [h]
  · simp

theorem swapAt_other (a : Nat → α) (i j r : Nat) (h1 : r ≠ i) (h2 : r ≠ j) :
    swapAt a i j r = a r := by
  simp [swapAt, h1, h2]

theorem slice_eq_of_rearranges_left {a b : Nat → α} {p q : Nat} (lo hi : Nat)
    (h : Rearranges a b p q) (hd : hi ≤ p ∨ q ≤ lo) : slice b lo hi = slice a lo hi :=
  slice_congr a b lo hi (fun r h1 h2 => h.1 r (by omega))

theorem swapAt_add (a : Nat → α) (lo i j x : Nat) :
    swapAt a (lo + i) (lo + j) (lo + x)
      = if x = i then a (lo + j) else if x = j then a (lo + i) else a (lo + x) := by
  simp only [swapAt, Nat.add_left_cancel_iff]

theorem getD_slice (a : Nat → α) (lo hi i : Nat) (d : α) (h : i < hi - lo) :
    (slice a lo hi).getD i d = a (lo + i) := by
  rw [List.getD_eq_getElem _ _ (by rw [length_slice]; exact h), getElem_slice]

end Buffers

section Sorting

variable {α : Type} [LinearOrder α]

theorem ascending_iff (b : Nat → α) (lo hi : Nat) :
    Ascending b lo hi ↔ ∀ i j, lo ≤ i → i ≤ j → j < hi → b i ≤ b j := by
  unfold Ascending
  rw [List.Sorted, List.pairwise_iff_getElem]
  constructor
  · intro h i j h1 h2 h3
    rcases Nat.eq_or_lt_of_le h2 with h4 | h4
    · rw [h4]
    · have := h (i - lo) (j - lo) (by rw [length_slice]; omega) (by rw [length_slice]; omega)
        (by omega)
      rw [getElem_slice, getElem_slice] at this
      have e1 : lo + (i - lo) = i := by omega
      have e2 : lo + (j - lo) = j := by omega
      rwa [e1, e2] at this
  · intro h i j h1 h2 h3
    rw [getElem_slice, getElem_slice]
    rw [length_slice] at h1 h2
    exact h _ _ (by omega) (by omega) (by omega)

theorem bubbleFrom_perm (t : List α) : ∀ x : α, (bubbleFrom x t).2.Perm (x :: t) := by
  induction t with
  | nil => intro x; exact List.Perm.refl _
  | cons y t ih =>
    intro x
    rw [bubbleFrom]
    split
    · exact ((ih x).cons y).trans (List.Perm.swap x y t)
    · exact (ih y).cons x

theorem bubbleFrom_of_sorted (t : List α) :
    ∀ x : α, (x :: t).Sorted (· ≤ ·) → bubbleFrom x t = (false, x :: t) := by
  induction t with
  | nil => intro x _; rfl
  | cons y t ih =>
    intro x hs
    have hxy : x ≤ y := List.rel_of_sorted_cons hs y (List.mem_cons_self y t)
    rw [bubbleFrom, if_neg (not_lt.mpr hxy), ih y hs.of_cons]

theorem bubbleFrom_no_swap (t : List α) :
    ∀ x : α, (bubbleFrom x t).1 = false →
      (bubbleFrom x t).2 = x :: t ∧ (x :: t).Sorted (· ≤ ·) := by
  induction t with
  | nil => intro x _; exact ⟨rfl, List.sorted_singleton x⟩
  | cons y t ih =>
    intro x h
    rw [bubbleFrom] at h ⊢
    split at h
    · exact absurd h (by simp)
    · rename_i hyx
      rw [if_neg hyx]
      obtain ⟨h1, h2⟩ := ih y h
      refine ⟨by simp only [h1], ?_⟩
      have hxy : x ≤ y := not_lt.mp hyx
      exact List.Sorted.cons hxy h2

theorem bubbleFrom_last_max (t : List α) :
    ∀ x : α, ∃ init m, (bubbleFrom x t).2 = init ++ [m] ∧ ∀ z ∈ x :: t, z ≤ m := by
  induction t with
  | nil =>
    intro x
    exact ⟨[], x, rfl, by simp⟩
  | cons y t ih =>
    intro x
    rw [bubbleFrom]
    split
    · rename_i hyx
      obtain ⟨init, m, h1, h2⟩ := ih x
      refine ⟨y :: init, m, by simp only [h1, List.cons_append], ?_⟩
      intro z hz
      rcases List.mem_cons.mp hz with rfl | hz
      · exact h2 z (List.mem_cons_self _ _)
      · rcases List.mem_cons.mp hz with rfl | hz
        · exact le_trans (le_of_lt hyx) (h2 x (List.mem_cons_self _ _))
        · exact h2 z (List.mem_cons_of_mem _ hz)
    · rename_i hyx
      obtain ⟨init, m, h1, h2⟩ := ih y
      refine ⟨x :: init, m, by simp only [h1, List.cons_append], ?_⟩
      intro z hz
      rcases List.mem_cons.mp hz with rfl | hz
      · exact le_trans (not_lt.mp hyx) (h2 y (List.mem_cons_self _ _))
      · exact h2 z hz

theorem bubbleFrom_append_sorted (s : List α) (hs : s.Sorted (· ≤ ·)) (l : List α) :
    ∀ x : α, (∀ z ∈ x :: l, ∀ y ∈ s, z ≤ y) →
      bubbleFrom x (l ++ s) = ((bubbleFrom x l).1, (bubbleFrom x l).2 ++ s) := by
  induction l with
  | nil =>
    intro x hdom
    rw [List.nil_append, bubbleFrom_of_sorted s x]
    · rfl
    · exact List.sorted_cons.mpr ⟨fun y hy => hdom x (List.mem_cons_self _ _) y hy, hs⟩
  | cons y l ih =>
    intro x hdom
    rw [List.cons_append, bubbleFrom, bubbleFrom]
    split
    · rw [ih x (fun z hz => hdom z (by
        rcases List.mem_cons.mp hz with rfl | hz
        · exact List.mem_cons_self _ _
        · exact List.mem_cons_of_mem _ (List.mem_cons_of_mem _ hz)))]
      rfl
    · rw [ih y (fun z hz => hdom z (List.mem_cons_of_mem _ hz))]
      rfl

theorem bubblePass_perm (l : List α) : (bubblePass l).2.Perm l := by
  cases l with
  | nil => exact List.Perm.refl _
  | cons x t => exact bubbleFrom_perm t x

theorem Bubble_rearranges (a : Nat → α) (lo hi : Nat) :
    Rearranges a (Bubble a lo hi).2 lo hi :=
  writeBack_rearranges a lo hi _ (bubblePass_perm _)

theorem slice_Bubble (a : Nat → α) (lo hi : Nat) :
    slice (Bubble a lo hi).2 lo hi = (bubblePass (slice a lo hi)).2 := by
  apply slice_writeBack
  rw [(bubblePass_perm _).length_eq, length_slice]

/-- The passes of `BubbleSort`: with the range split as `p ++ s`, `s` ascending and above
`p`, at most `|p|` more passes leave the range ascending. -/
theorem bubbleLoop_spec (lo hi : Nat) :
    ∀ (m : Nat) (a : Nat → α) (p s : List α), slice a lo hi = p ++ s →
      s.Sorted (· ≤ ·) → (∀ z ∈ p, ∀ y ∈ s, z ≤ y) → p.length ≤ m →
      Rearranges a (bubbleLoop m a lo hi) lo hi ∧ Ascending (bubbleLoop m a lo hi) lo hi := by
  intro m
  induction m with
  | zero =>
    intro a p s hsl hs _ hlen
    have hp : p = [] := List.eq_nil_of_length_eq_zero (by omega)
    rw [hp, List.nil_append] at hsl
    refine ⟨Rearranges.refl a lo hi, ?_⟩
    show (slice a lo hi).Sorted (· ≤ ·)
    rw [hsl]; exact hs
  | succ m ih =>
    intro a p s hsl hs hdom hlen
    rw [bubbleLoop]
    by_cases hflag : (Bubble a lo hi).1 = true
    · rw [if_pos hflag]
      cases p with
      | nil =>
        exfalso
        rw [List.nil_append] at hsl
        have hflag2 : (bubblePass (slice a lo hi)).1 = true := hflag
        rw [hsl] at hflag2
        cases s with
        | nil => simp [bubblePass] at hflag2
        | cons y s =>
          rw [bubblePass, bubbleFrom_of_sorted s y hs] at hflag2
          simp at hflag2
      | cons x l =>
        have hpass : (bubblePass (slice a lo hi)).2 = (bubbleFrom x l).2 ++ s := by
          rw [hsl, List.cons_append, bubblePass, bubbleFrom_append_sorted s hs l x hdom]
        obtain ⟨init, mx, h1, h2⟩ := bubbleFrom_last_max l x
        have hperm : (init ++ [mx]).Perm (x :: l) := h1 ▸ bubbleFrom_perm l x
        have hmx : mx ∈ x :: l := hperm.subset (by simp)
        have hinit : ∀ z ∈ init, z ∈ x :: l := fun z hz => hperm.subset (by simp [hz])
        have hlen2 : init.length ≤ m := by
          have := hperm.length_eq
          simp only [List.length_append, List.length_cons, List.length_nil] at this hlen
          omega
        have hstep := ih (Bubble a lo hi).2 init (mx :: s)
          (by rw [slice_Bubble, hpass, h1, List.append_assoc]; rfl)
          (List.sorted_cons.mpr ⟨fun y hy => hdom mx hmx y hy, hs⟩)
          (fun z hz y hy => by
            rcases List.mem_cons.mp hy with rfl | hy
            · exact h2 z (hinit z hz)
            · exact hdom z (hinit z hz) y hy)
          hlen2
        exact ⟨(Bubble_rearranges a lo hi).trans hstep.1, hstep.2⟩
    · rw [if_neg hflag]
      refine ⟨Bubble_rearranges a lo hi, ?_⟩
      have hflag2 : (bubblePass (slice a lo hi)).1 = false := by
        simpa using hflag
      show (slice (Bubble a lo hi).2 lo hi).Sorted (· ≤ ·)
      rw [slice_Bubble]
      generalize slice a lo hi = xs at hflag2
      cases xs with
      | nil => exact List.sorted_nil
      | cons x t =>
        obtain ⟨h1, h2⟩ := bubbleFrom_no_swap t x hflag2
        show (bubbleFrom x t).2.Sorted (· ≤ ·)
        rw [h1]; exact h2

theorem BubbleSort_spec (a : Nat → α) (lo hi : Nat) :
    Rearranges a (BubbleSort a lo hi) lo hi ∧ Ascending (BubbleSort a lo hi) lo hi :=
  bubbleLoop_spec lo hi (hi - lo) a (slice a lo hi) [] (by simp) List.sorted_nil
    (by simp) (by rw [length_slice])

theorem maxScan_spec (a : Nat → α) (lo : Nat) :
    ∀ (k best i : Nat), lo ≤ best → best < i →
      (∀ r, lo ≤ r → r < i → a r ≤ a best) →
      lo ≤ maxScan a best i k ∧ maxScan a best i k < i + k ∧
      ∀ r, lo ≤ r → r < i + k → a r ≤ a (maxScan a best i k) := by
  intro k
  induction k with
  | zero =>
    intro best i h1 h2 h3
    exact ⟨h1, h2, h3⟩
  | succ k ih =>
    intro best i h1 h2 h3
    rw [maxScan]
    have hstep := ih (if a best < a i then i else best) (i + 1)
      (by split <;> omega) (by split <;> omega)
      (by
        intro r hr1 hr2
        split
        · rename_i hlt
          rcases Nat.eq_or_lt_of_le (Nat.le_of_lt_succ hr2) with h | h
          · rw [h]
          · exact le_trans (h3 r hr1 h) (le_of_lt hlt)
        · rename_i hlt
          rcases Nat.eq_or_lt_of_le (Nat.le_of_lt_succ hr2) with h | h
          · rw [h]; exact not_lt.mp hlt
          · exact h3 r hr1 h)
    refine ⟨hstep.1, by omega, fun r hr1 hr2 => hstep.2.2 r hr1 (by omega)⟩

theorem Max_spec (a : Nat → α) (lo hi : Nat) (h : lo < hi) :
    lo ≤ Max a lo hi ∧ Max a lo hi < hi ∧ ∀ r, lo ≤ r → r < hi → a r ≤ a (Max a lo hi) := by
  have hs := maxScan_spec a lo (hi - lo - 1) lo (lo + 1) (le_refl _) (by omega)
    (by
      intro r h1 h2
      have : r = lo := by omega
      rw [this])
  refine ⟨hs.1, ?_, fun r h1 h2 => hs.2.2 r h1 (by omega)⟩
  have := hs.2.1
  unfold Max
  omega

/-- Moving a maximum of `[lo, p]` to rank `p` extends the finished suffix by one rank. -/
theorem suffixDone_step (a : Nat → α) (lo p hi m : Nat)
    (hs : SuffixDone a lo (p + 1) hi) (hm1 : lo ≤ m) (hm2 : m ≤ p)
    (hmax : ∀ r, lo ≤ r → r ≤ p → a r ≤ a m) :
    SuffixDone (swapAt a m p) lo p hi := by
  have hval : ∀ r, lo ≤ r → r ≤ p → ∃ q, lo ≤ q ∧ q ≤ p ∧ swapAt a m p r = a q := by
    intro r h1 h2
    by_cases hrm : r = m
    · exact ⟨p, by omega, le_refl _, by rw [hrm, swapAt_left]⟩
    · by_cases hrp : r = p
      · exact ⟨m, hm1, hm2, by rw [hrp, swapAt_right]⟩
      · exact ⟨r, h1, h2, swapAt_other a m p r hrm hrp⟩
  have hp : swapAt a m p p = a m := swapAt_right a m p
  have hgt : ∀ r, p < r → swapAt a m p r = a r :=
    fun r hr => swapAt_other a m p r (by omega) (by omega)
  constructor
  · intro i j h1 h2 h3
    rcases Nat.eq_or_lt_of_le h1 with h | h
    · rw [← h, hp]
      rcases Nat.eq_or_lt_of_le h2 with h4 | h4
      · rw [← h4, ← h, hp]
      · rw [hgt j (by omega)]
        exact hs.2 m j hm1 (by omega) (by omega) h3
    · rw [hgt i h, hgt j (by omega)]
      exact hs.1 i j (by omega) h2 h3
  · intro i j h1 h2 h3 h4
    obtain ⟨q, hq1, hq2, hq3⟩ := hval i h1 (by omega)
    rw [hq3]
    rcases Nat.eq_or_lt_of_le h3 with h | h
    · rw [← h, hp]
      exact hmax q hq1 hq2
    · rw [hgt j h]
      exact hs.2 q j hq1 (by omega) (by omega) h4

/-- Rearranging `[lo, p)` keeps the finished suffix finished. -/
theorem suffixDone_of_rearranges (a b : Nat → α) (lo p hi : Nat)
    (hs : SuffixDone a lo p hi) (hr : Rearranges a b lo p) : SuffixDone b lo p hi := by
  have hval : ∀ r, lo ≤ r → r < p → ∃ q, lo ≤ q ∧ q < p ∧ b r = a q := by
    intro r h1 h2
    have hmem : b r ∈ slice b lo p := (mem_slice b lo p (b r)).mpr ⟨r, h1, h2, rfl⟩
    obtain ⟨q, hq1, hq2, hq3⟩ := (mem_slice a lo p (b r)).mp (hr.2.subset hmem)
    exact ⟨q, hq1, hq2, hq3.symm⟩
  constructor
  · intro i j h1 h2 h3
    rw [hr.1 i (Or.inr h1), hr.1 j (Or.inr (by omega))]
    exact hs.1 i j h1 h2 h3
  · intro i j h1 h2 h3 h4
    obtain ⟨q, hq1, hq2, hq3⟩ := hval i h1 h2
    rw [hq3, hr.1 j (Or.inr h3)]
    exact hs.2 q j hq1 hq2 h3 h4

theorem ascending_of_suffixDone (a : Nat → α) (lo hi : Nat)
    (hs : SuffixDone a lo lo hi) : Ascending a lo hi :=
  (ascending_iff a lo hi).mpr hs.1

theorem selectionLoop_spec (lo hi : Nat) :
    ∀ (k : Nat) (a : Nat → α), lo + k ≤ hi → SuffixDone a lo (lo + k) hi →
      Rearranges a (selectionLoop lo k a) lo hi ∧
      Ascending (selectionLoop lo k a) lo hi := by
  intro k
  induction k with
  | zero =>
    intro a _ hs
    exact ⟨Rearranges.refl a lo hi, ascending_of_suffixDone a lo hi hs⟩
  | succ k ih =>
    intro a hk hs
    rw [selectionLoop]
    obtain ⟨hm1, hm2, hm3⟩ := Max_spec a lo (lo + k + 1) (by omega)
    have hstep := ih (swapAt a (Max a lo (lo + k + 1)) (lo + k)) (by omega)
      (suffixDone_step a lo (lo + k) hi _ hs hm1 (by omega)
        (fun r h1 h2 => hm3 r h1 (by omega)))
    exact ⟨(swapAt_rearranges a lo hi _ _ hm1 (by omega) (by omega) (by omega)).trans
      hstep.1, hstep.2⟩

theorem SelectionSort_spec (a : Nat → α) (lo hi : Nat) (h : lo ≤ hi) :
    Rearranges a (SelectionSort a lo hi) lo hi ∧ Ascending (SelectionSort a lo hi) lo hi := by
  apply selectionLoop_spec lo hi (hi - lo) a (by omega)
  have : lo + (hi - lo) = hi := by omega
  rw [this]
  exact ⟨fun i j h1 h2 h3 => by omega, fun i j h1 h2 h3 h4 => by omega⟩

theorem mergeLists_perm (l r : List α) : (mergeLists l r).Perm (l ++ r) := by
  induction l, r using mergeLists.induct with
  | case1 r => rw [mergeLists]; exact List.Perm.refl _
  | case2 x l => rw [mergeLists, List.append_nil]
  | case3 x l y r hlt ih =>
    rw [mergeLists, if_pos hlt]
    exact (ih.cons y).trans (List.perm_middle.symm)
  | case4 x l y r hlt ih =>
    rw [mergeLists, if_neg hlt]
    exact ih.cons x

theorem mergeLists_sorted (l r : List α) (hl : l.Sorted (· ≤ ·)) (hr : r.Sorted (· ≤ ·)) :
    (mergeLists l r).Sorted (· ≤ ·) := by
  induction l, r using mergeLists.induct with
  | case1 r => rw [mergeLists]; exact hr
  | case2 x l => rw [mergeLists]; exact hl
  | case3 x l y r hlt ih =>
    rw [mergeLists, if_pos hlt]
    refine List.sorted_cons.mpr ⟨?_, ih hl hr.of_cons⟩
    intro z hz
    rcases List.mem_append.mp ((mergeLists_perm (x :: l) r).subset hz) with h | h
    · rcases List.mem_cons.mp h with rfl | h
      · exact le_of_lt hlt
      · exact le_trans (le_of_lt hlt) (List.rel_of_sorted_cons hl z h)
    · exact List.rel_of_sorted_cons hr z h
  | case4 x l y r hlt ih =>
    rw [mergeLists, if_neg hlt]
    refine List.sorted_cons.mpr ⟨?_, ih hl.of_cons hr⟩
    intro z hz
    rcases List.mem_append.mp ((mergeLists_perm l (y :: r)).subset hz) with h | h
    · exact List.rel_of_sorted_cons hl z h
    · rcases List.mem_cons.mp h with rfl | h
      · exact not_lt.mp hlt
      · exact le_trans (not_lt.mp hlt) (List.rel_of_sorted_cons hr z h)

theorem Merge_spec (a : Nat → α) (lo hi : Nat) (h : lo ≤ hi)
    (h1 : Ascending a lo ((lo + hi) / 2)) (h2 : Ascending a ((lo + hi) / 2) hi) :
    Rearranges a (Merge a lo hi) lo hi ∧ Ascending (Merge a lo hi) lo hi := by
  have hp : (mergeLists (slice a lo ((lo + hi) / 2)) (slice a ((lo + hi) / 2) hi)).Perm
      (slice a lo hi) := by
    rw [slice_append a lo ((lo + hi) / 2) hi (by omega) (by omega)]
    exact mergeLists_perm _ _
  refine ⟨writeBack_rearranges a lo hi _ hp, ?_⟩
  show (slice (Merge a lo hi) lo hi).Sorted (· ≤ ·)
  rw [Merge, slice_writeBack a lo hi _ (by rw [hp.length_eq, length_slice])]
  exact mergeLists_sorted _ _ h1 h2

theorem MergeSort_spec (n : Nat) :
    ∀ (a : Nat → α) (lo hi : Nat), hi - lo = n → lo ≤ hi →
      Rearranges a (MergeSort a lo hi) lo hi ∧ Ascending (MergeSort a lo hi) lo hi := by
  induction n using Nat.strong_induction_on with
  | _ n ih =>
    intro a lo hi hn hle
    rw [MergeSort]
    by_cases hsmall : hi - lo < 2
    · rw [if_pos hsmall]
      refine ⟨Rearranges.refl a lo hi, (ascending_iff a lo hi).mpr ?_⟩
      intro i j h1 h2 h3
      have : i = j := by omega
      rw [this]
    · rw [if_neg hsmall]
      obtain ⟨hr1, hs1⟩ := ih (((lo + hi) / 2) - lo) (by omega) a lo ((lo + hi) / 2) rfl
        (by omega)
      obtain ⟨hr2, hs2⟩ := ih (hi - ((lo + hi) / 2)) (by omega)
        (MergeSort a lo ((lo + hi) / 2)) ((lo + hi) / 2) hi rfl (by omega)
      have hleft : Ascending (MergeSort (MergeSort a lo ((lo + hi) / 2)) ((lo + hi) / 2) hi)
          lo ((lo + hi) / 2) := by
        unfold Ascending
        rw [slice_eq_of_rearranges_left lo ((lo + hi) / 2) hr2 (Or.inl (le_refl _))]
        exact hs1
      obtain ⟨hr3, hs3⟩ := Merge_spec _ lo hi hle hleft hs2
      exact ⟨((hr1.mono (le_refl _) (by omega) (by omega)).trans
        (hr2.mono (by omega) (by omega) (le_refl _))).trans hr3, hs3⟩

theorem Partition_spec (a : Nat → α) (lo hi : Nat) (h : lo < hi) :
    Rearranges a (Partition a lo hi).1 lo hi ∧
    lo ≤ (Partition a lo hi).2 ∧ (Partition a lo hi).2 < hi ∧
    (∀ x ∈ slice (Partition a lo hi).1 lo (Partition a lo hi).2,
      x < (Partition a lo hi).1 (Partition a lo hi).2) ∧
    (∀ x ∈ slice (Partition a lo hi).1 ((Partition a lo hi).2 + 1) hi,
      (Partition a lo hi).1 (Partition a lo hi).2 ≤ x) := by
  generalize hless : (slice a (lo + 1) hi).filter (fun x => decide (x < a lo)) = less
  generalize hgeq : (slice a (lo + 1) hi).filter (fun x => !decide (x < a lo)) = geq
  have hb : (Partition a lo hi).1 = writeBack a lo (less ++ a lo :: geq) := by
    simp only [Partition, hless, hgeq]
  have hmi : (Partition a lo hi).2 = lo + less.length := by
    simp only [Partition, hless]
  have hperm : (less ++ a lo :: geq).Perm (slice a lo hi) := by
    rw [slice_eq_cons a lo hi h]
    refine List.perm_middle.trans (List.Perm.cons _ ?_)
    rw [← hless, ← hgeq]
    exact List.filter_append_perm _ _
  have hlen : (less ++ a lo :: geq).length = hi - lo := by
    rw [hperm.length_eq, length_slice]
  have hlen2 : less.length + (geq.length + 1) = hi - lo := by
    simpa using hlen
  have hsl : slice (Partition a lo hi).1 lo hi = less ++ a lo :: geq := by
    rw [hb]; exact slice_writeBack a lo hi _ hlen
  have hsplit : slice (Partition a lo hi).1 lo hi =
      slice (Partition a lo hi).1 lo (lo + less.length) ++
        ((Partition a lo hi).1 (lo + less.length) ::
          slice (Partition a lo hi).1 (lo + less.length + 1) hi) := by
    rw [slice_append _ lo (lo + less.length) hi (by omega) (by omega),
      slice_eq_cons _ (lo + less.length) hi (by omega)]
  rw [hsl] at hsplit
  obtain ⟨e1, e2⟩ := List.append_inj hsplit (by rw [length_slice]; omega)
  obtain ⟨e3, e4⟩ := List.cons.inj e2
  refine ⟨hb ▸ writeBack_rearranges a lo hi _ hperm, by omega, by omega, ?_, ?_⟩
  · rw [hmi, ← e1, ← e3]
    intro x hx
    rw [← hless] at hx
    simpa using (List.mem_filter.mp hx).2
  · rw [hmi, ← e4, ← e3]
    intro x hx
    rw [← hgeq] at hx
    simpa using (List.mem_filter.mp hx).2

theorem ascending_small (a : Nat → α) (lo hi : Nat) (h : hi - lo < 2) :
    Ascending a lo hi := by
  refine (ascending_iff a lo hi).mpr ?_
  intro i j h1 h2 h3
  have : i = j := by omega
  rw [this]

theorem QuickSort_spec (n : Nat) :
    ∀ (a : Nat → α) (lo hi : Nat), hi - lo = n → lo ≤ hi →
      Rearranges a (QuickSort a lo hi) lo hi ∧ Ascending (QuickSort a lo hi) lo hi := by
  induction n using Nat.strong_induction_on with
  | _ n ih =>
    intro a lo hi hn hle
    rw [QuickSort]
    by_cases hsmall : hi - lo < 2
    · rw [if_pos hsmall]
      exact ⟨Rearranges.refl a lo hi, ascending_small a lo hi hsmall⟩
    · rw [if_neg hsmall]
      obtain ⟨hr0, hm1, hm2, hlt, hge⟩ := Partition_spec a lo hi (by omega)
      generalize (Partition a lo hi).1 = b at hr0 hlt hge ⊢
      generalize (Partition a lo hi).2 = mi at hm1 hm2 hlt hge ⊢
      obtain ⟨hr1, hs1⟩ := ih (mi - lo) (by omega) b lo mi rfl hm1
      obtain ⟨hr2, hs2⟩ := ih (hi - (mi + 1)) (by omega) (QuickSort b lo mi) (mi + 1) hi rfl
        (by omega)
      refine ⟨(hr0.trans (hr1.mono (le_refl _) hm1 (by omega))).trans
        (hr2.mono (by omega) (by omega) (le_refl _)), ?_⟩
      have hpiv : QuickSort (QuickSort b lo mi) (mi + 1) hi mi = b mi := by
        rw [hr2.1 mi (Or.inl (by omega)), hr1.1 mi (Or.inr (le_refl _))]
      have hleft : slice (QuickSort (QuickSort b lo mi) (mi + 1) hi) lo mi
          = slice (QuickSort b lo mi) lo mi :=
        slice_eq_of_rearranges_left lo mi hr2 (Or.inl (by omega))
      have hright : slice (QuickSort b lo mi) (mi + 1) hi = slice b (mi + 1) hi :=
        slice_eq_of_rearranges_left (mi + 1) hi hr1 (Or.inr (by omega))
      unfold Ascending
      rw [slice_append _ lo mi hi hm1 (by omega), slice_eq_cons _ mi hi hm2, hpiv, hleft]
      unfold List.Sorted
      rw [List.pairwise_append]
      refine ⟨hs1, List.pairwise_cons.mpr ⟨?_, hs2⟩, ?_⟩
      · intro x hx
        exact hge x (hright ▸ hr2.2.subset hx)
      · intro x hx y hy
        have hxlt : x < b mi := hlt x (hr1.2.subset hx)
        rcases List.mem_cons.mp hy with rfl | hy
        · exact le_of_lt hxlt
        · exact le_trans (le_of_lt hxlt) (hge y (hright ▸ hr2.2.subset hy))

theorem bigger_cases (a : Nat → α) (lo n m c : Nat) :
    (bigger a lo n m c = m ∧ (c < n → a (lo + c) ≤ a (lo + m))) ∨
    (bigger a lo n m c = c ∧ c < n ∧ a (lo + m) < a (lo + c)) := by
  unfold bigger
  split
  · rename_i h
    exact Or.inr ⟨rfl, h.1, h.2⟩
  · rename_i h
    exact Or.inl ⟨rfl, fun hc => not_lt.mp (fun hlt => h ⟨hc, hlt⟩)⟩

theorem largest_eq (a : Nat → α) (lo n i : Nat) (h : largest a lo n i = i) :
    NodeOk a lo n i := by
  intro c hc hcn
  unfold largest at h
  rcases bigger_cases a lo n i (2 * i + 1) with ⟨e1, h1⟩ | ⟨e1, h1, h2⟩
  · rw [e1] at h
    rcases bigger_cases a lo n i (2 * i + 2) with ⟨_, h3⟩ | ⟨e2, _, _⟩
    · rcases hc with rfl | rfl
      · exact h1 hcn
      · exact h3 hcn
    · omega
  · rw [e1] at h
    rcases bigger_cases a lo n (2 * i + 1) (2 * i + 2) with ⟨e2, _⟩ | ⟨e2, _, _⟩ <;> omega

theorem largest_ne (a : Nat → α) (lo n i : Nat) (h : largest a lo n i ≠ i) :
    (largest a lo n i = 2 * i + 1 ∨ largest a lo n i = 2 * i + 2) ∧
    largest a lo n i < n ∧ a (lo + i) < a (lo + largest a lo n i) ∧
    ∀ c, (c = 2 * i + 1 ∨ c = 2 * i + 2) → c < n → a (lo + c) ≤ a (lo + largest a lo n i) := by
  unfold largest at h ⊢
  rcases bigger_cases a lo n i (2 * i + 1) with ⟨e1, h1⟩ | ⟨e1, h1, h2⟩
  · rw [e1] at h ⊢
    rcases bigger_cases a lo n i (2 * i + 2) with ⟨e2, _⟩ | ⟨e2, h3, h4⟩
    · exact absurd e2 h
    · rw [e2]
      refine ⟨Or.inr rfl, h3, h4, ?_⟩
      intro c hc hcn
      rcases hc with rfl | rfl
      · exact le_trans (h1 hcn) (le_of_lt h4)
      · exact le_refl _
  · rw [e1] at h ⊢
    rcases bigger_cases a lo n (2 * i + 1) (2 * i + 2) with ⟨e2, h3⟩ | ⟨e2, h3, h4⟩
    · rw [e2]
      refine ⟨Or.inl rfl, h1, h2, ?_⟩
      intro c hc hcn
      rcases hc with rfl | rfl
      · exact le_refl _
      · exact h3 hcn
    · rw [e2]
      refine ⟨Or.inr rfl, h3, lt_trans h2 h4, ?_⟩
      intro c hc hcn
      rcases hc with rfl | rfl
      · exact le_of_lt h4
      · exact le_refl _

theorem siftDown_rearranges (lo n : Nat) :
    ∀ (d : Nat) (a : Nat → α) (i : Nat), n - i = d →
      Rearranges a (siftDown a lo n i) lo (lo + n) := by
  intro d
  induction d using Nat.strong_induction_on with
  | _ d ih =>
    intro a i hd
    rw [siftDown]
    by_cases h : largest a lo n i = i
    · rw [if_pos h]; exact Rearranges.refl a lo (lo + n)
    · rw [if_neg h]
      obtain ⟨h1, h2, _, _⟩ := largest_ne a lo n i h
      exact (swapAt_rearranges a lo (lo + n) _ _ (by omega) (by omega) (by omega)
        (by omega)).trans (ih (n - largest a lo n i) (by omega) _ _ rfl)

theorem siftDown_heap (lo n k : Nat) :
    ∀ (d : Nat) (a : Nat → α) (i : Nat), n - i = d →
      (∀ j, k ≤ j → j ≠ i → NodeOk a lo n j) →
      (∀ p, k ≤ p → (i = 2 * p + 1 ∨ i = 2 * p + 2) →
        ∀ c, (c = 2 * i + 1 ∨ c = 2 * i + 2) → c < n → a (lo + c) ≤ a (lo + p)) →
      HeapFrom (siftDown a lo n i) lo n k := by
  intro d
  induction d using Nat.strong_induction_on with
  | _ d ih =>
    intro a i hd hok hpar
    rw [siftDown]
    by_cases h : largest a lo n i = i
    · rw [if_pos h]
      intro j hj
      by_cases hji : j = i
      · rw [hji]; exact largest_eq a lo n i h
      · exact hok j hj hji
    · rw [if_neg h]
      obtain ⟨hL, hLn, hlt, hch⟩ := largest_ne a lo n i h
      generalize largest a lo n i = L at hL hLn hlt hch h ⊢
      apply ih (n - L) (by omega) _ L rfl
      · intro j hj hjL c hc hcn
        rw [swapAt_add, swapAt_add]
        by_cases hji : j = i
        · rw [if_pos hji]
          by_cases hcL : c = L
          · rw [if_neg (by omega), if_pos hcL]
            exact le_of_lt hlt
          · rw [if_neg (by omega), if_neg hcL]
            exact hch c (by omega) hcn
        · rw [if_neg hji, if_neg hjL]
          by_cases hci : c = i
          · rw [if_pos hci]
            exact hpar j hj (by omega) L hL hLn
          · rw [if_neg hci, if_neg (by omega)]
            exact hok j hj hji c hc hcn
      · intro p hp hpL c hc hcn
        have hpi : p = i := by omega
        rw [swapAt_add, swapAt_add, if_neg (by omega), if_neg (by omega), if_pos hpi]
        exact hok L (by omega) (by omega) c hc hcn

theorem heapifyLoop_spec (lo n : Nat) :
    ∀ (k : Nat) (a : Nat → α), HeapFrom a lo n k →
      Rearranges a (heapifyLoop lo n k a) lo (lo + n) ∧
      HeapFrom (heapifyLoop lo n k a) lo n 0 := by
  intro k
  induction k with
  | zero => intro a h; exact ⟨Rearranges.refl a lo (lo + n), h⟩
  | succ k ih =>
    intro a h
    rw [heapifyLoop]
    have hheap : HeapFrom (siftDown a lo n k) lo n k :=
      siftDown_heap lo n k (n - k) a k rfl (fun j hj hjk => h j (by omega))
        (fun p hp hpk => by omega)
    obtain ⟨hr, hh⟩ := ih (siftDown a lo n k) hheap
    exact ⟨(siftDown_rearranges lo n (n - k) a k rfl).trans hr, hh⟩

theorem heap_root_max (a : Nat → α) (lo n : Nat) (h : HeapFrom a lo n 0) :
    ∀ j, j < n → a (lo + j) ≤ a lo := by
  intro j
  induction j using Nat.strong_induction_on with
  | _ j ih =>
    intro hj
    cases j with
    | zero => exact le_refl _
    | succ j =>
      have hpar := h (j / 2) (Nat.zero_le _) (j + 1) (by omega) hj
      exact le_trans hpar (ih (j / 2) (by omega) (by omega))

theorem extractLoop_spec (lo hi : Nat) :
    ∀ (m : Nat) (a : Nat → α), lo + m ≤ hi → HeapFrom a lo m 0 →
      SuffixDone a lo (lo + m) hi →
      Rearranges a (extractLoop lo m a) lo hi ∧ Ascending (extractLoop lo m a) lo hi := by
  intro m
  induction m with
  | zero =>
    intro a _ _ hs
    exact ⟨Rearranges.refl a lo hi, ascending_of_suffixDone a lo hi hs⟩
  | succ m ih =>
    intro a hm hheap hs
    rw [extractLoop]
    have hmax : ∀ r, lo ≤ r → r ≤ lo + m → a r ≤ a lo := by
      intro r h1 h2
      have := heap_root_max a lo (m + 1) hheap (r - lo) (by omega)
      have e : lo + (r - lo) = r := by omega
      rwa [e] at this
    have hs2 : SuffixDone (swapAt a lo (lo + m)) lo (lo + m) hi :=
      suffixDone_step a lo (lo + m) hi lo hs (le_refl _) (by omega) hmax
    have hr2 : Rearranges a (swapAt a lo (lo + m)) lo hi :=
      swapAt_rearranges a lo hi _ _ (le_refl _) (by omega) (by omega) (by omega)
    have hheap2 : HeapFrom (siftDown (swapAt a lo (lo + m)) lo m 0) lo m 0 := by
      apply siftDown_heap lo m 0 (m - 0) _ 0 rfl
      · intro j _ hj0 c hc hcm
        have e := swapAt_add a lo 0 m
        simp only [Nat.add_zero] at e
        rw [e, e, if_neg (by omega), if_neg (by omega), if_neg hj0, if_neg (by omega)]
        exact hheap j (Nat.zero_le _) c hc (by omega)
      · intro p _ hp
        omega
    have hr3 : Rearranges (swapAt a lo (lo + m)) (siftDown (swapAt a lo (lo + m)) lo m 0)
        lo (lo + m) := siftDown_rearranges lo m (m - 0) _ 0 rfl
    obtain ⟨hr4, hasc⟩ := ih (siftDown (swapAt a lo (lo + m)) lo m 0) (by omega) hheap2
      (suffixDone_of_rearranges _ _ lo (lo + m) hi hs2 hr3)
    exact ⟨(hr2.trans (hr3.mono (le_refl _) (by omega) (by omega))).trans hr4, hasc⟩

theorem HeapSort_spec (a : Nat → α) (lo hi : Nat) (h : lo ≤ hi) :
    Rearranges a (HeapSort a lo hi) lo hi ∧ Ascending (HeapSort a lo hi) lo hi := by
  have hstart : HeapFrom a lo (hi - lo) ((hi - lo) / 2) := by
    intro j hj c hc hcn
    omega
  obtain ⟨hr1, hh1⟩ := heapifyLoop_spec lo (hi - lo) ((hi - lo) / 2) a hstart
  have e : lo + (hi - lo) = hi := by omega
  rw [e] at hr1
  obtain ⟨hr2, hasc⟩ := extractLoop_spec lo hi (hi - lo)
    (heapifyLoop lo (hi - lo) ((hi - lo) / 2) a) (by omega) hh1
    (by rw [e]; exact ⟨fun i j h1 h2 h3 => by omega, fun i j h1 h2 h3 h4 => by omega⟩)
  exact ⟨hr1.trans hr2, hasc⟩

end Sorting

section Claim

variable {α : Type} [LinearOrder α]

/-- Two sorted rearrangements of the same range are the same buffer. -/
theorem sortsInto_unique (a b c : Nat → α) (lo hi : Nat)
    (hb : SortsInto a b lo hi) (hc : SortsInto a c lo hi) : b = c := by
  have heq : slice b lo hi = slice c lo hi :=
    List.eq_of_perm_of_sorted (hb.1.2.trans hc.1.2.symm) hb.2 hc.2
  funext r
  by_cases hr : lo ≤ r ∧ r < hi
  · have h1 := getD_slice b lo hi (r - lo) (b r) (by omega)
    have h2 := getD_slice c lo hi (r - lo) (b r) (by omega)
    have e : lo + (r - lo) = r := by omega
    rw [e] at h1 h2
    rw [← h1, ← h2, heq]
  · rw [hb.1.1 r (by omega), hc.1.1 r (by omega)]

theorem SortRange_spec (choice : SortChoice) (a : Nat → α) (lo hi : Nat) (h : lo ≤ hi) :
    SortsInto a (SortRange choice a lo hi) lo hi := by
  cases choice
  · exact BubbleSort_spec a lo hi
  · exact SelectionSort_spec a lo hi h
  · exact MergeSort_spec (hi - lo) a lo hi rfl h
  · exact QuickSort_spec (hi - lo) a lo hi rfl h
  · exact HeapSort_spec a lo hi h

/-- A sort of the whole container 5, 3, 3, 1, 4 leaves 1, 3, 3, 4, 5. -/
theorem sorted_example (b : Nat → Int)
    (h : SortsInto ints53314 b 0 5) : slice b 0 5 = [1, 3, 3, 4, 5] := by
  have hA : slice ints53314 0 5 = [5, 3, 3, 1, 4] := by decide
  have hp : (slice b 0 5).Perm [1, 3, 3, 4, 5] := by
    refine (hA ▸ h.1.2).trans ?_
    decide
  exact List.eq_of_perm_of_sorted hp h.2 (by decide)

end Claim

end SortEngine

/-- C12 (on the sort engine as modelled from the spec): for every container (buffer `a`
of an ordered element type, `size` elements) and every range `0 ≤ lo ≤ hi ≤ size`,
each of `BubbleSort`, `SelectionSort`, `MergeSort`, `QuickSort` and `HeapSort`, and
hence `Sort(lo, hi)` whichever it dispatches to, rearranges `[lo, hi)` into the
ascending permutation of its input multiset and leaves the other ranks alone; so all
five produce the same output; and each takes 5, 3, 3, 1, 4 to 1, 3, 3, 4, 5. -/
theorem C12_every_sort_gives_the_ascending_permutation {α : Type} [LinearOrder α]
    (a : Nat → α) (size lo hi : Nat) (hlo : lo ≤ hi) (_hsize : hi ≤ size) :
    (SortEngine.SortsInto a (SortEngine.BubbleSort a lo hi) lo hi ∧
      SortEngine.SortsInto a (SortEngine.SelectionSort a lo hi) lo hi ∧
      SortEngine.SortsInto a (SortEngine.MergeSort a lo hi) lo hi ∧
      SortEngine.SortsInto a (SortEngine.QuickSort a lo hi) lo hi ∧
      SortEngine.SortsInto a (SortEngine.HeapSort a lo hi) lo hi) ∧
    (∀ choice, SortEngine.SortsInto a (SortEngine.SortRange choice a lo hi) lo hi) ∧
    (SortEngine.SelectionSort a lo hi = SortEngine.BubbleSort a lo hi ∧
      SortEngine.MergeSort a lo hi = SortEngine.BubbleSort a lo hi ∧
      SortEngine.QuickSort a lo hi = SortEngine.BubbleSort a lo hi ∧
      SortEngine.HeapSort a lo hi = SortEngine.BubbleSort a lo hi) ∧
    (SortEngine.slice (SortEngine.BubbleSort ints53314 0 5) 0 5 = [1, 3, 3, 4, 5] ∧
      SortEngine.slice (SortEngine.SelectionSort ints53314 0 5) 0 5 = [1, 3, 3, 4, 5] ∧
      SortEngine.slice (SortEngine.MergeSort ints53314 0 5) 0 5 = [1, 3, 3, 4, 5] ∧
      SortEngine.slice (SortEngine.QuickSort ints53314 0 5) 0 5 = [1, 3, 3, 4, 5] ∧
      SortEngine.slice (SortEngine.HeapSort ints53314 0 5) 0 5 = [1, 3, 3, 4, 5]) := by
  have hB := SortEngine.BubbleSort_spec a lo hi
  have hS := SortEngine.SelectionSort_spec a lo hi hlo
  have hM := SortEngine.MergeSort_spec (hi - lo) a lo hi rfl hlo
  have hQ := SortEngine.QuickSort_spec (hi - lo) a lo hi rfl hlo
  have hH := SortEngine.HeapSort_spec a lo hi hlo
  refine ⟨⟨hB, hS, hM, hQ, hH⟩, fun choice => SortEngine.SortRange_spec choice a lo hi hlo,
    ⟨SortEngine.sortsInto_unique a _ _ lo hi hS hB,
      SortEngine.sortsInto_unique a _ _ lo hi hM hB,
      SortEngine.sortsInto_unique a _ _ lo hi hQ hB,
      SortEngine.sortsInto_unique a _ _ lo hi hH hB⟩, ?_⟩
  exact ⟨SortEngine.sorted_example _ (SortEngine.BubbleSort_spec _ 0 5),
    SortEngine.sorted_example _ (SortEngine.SelectionSort_spec _ 0 5 (by decide)),
    SortEngine.sorted_example _ (SortEngine.MergeSort_spec 5 _ 0 5 rfl (by decide)),
    SortEngine.sorted_example _ (SortEngine.QuickSort_spec 5 _ 0 5 rfl (by decide)),
    SortEngine.sorted_example _ (SortEngine.HeapSort_spec _ 0 5 (by decide))⟩

/-- C12, witness: the range `[1, 6)` of the `Vector<int>` holding 9, 5, 3, 3, 1, 4, 7. -/
theorem C12_every_sort_witness :
    (SortEngine.slice ints9533147 1 6 = [5, 3, 3, 1, 4] ∧ (1 : Nat) ≤ 6 ∧ (6 : Nat) ≤ 7) ∧
    (SortEngine.SortsInto ints9533147 (SortEngine.BubbleSort ints9533147 1 6) 1 6 ∧
      SortEngine.SortsInto ints9533147 (SortEngine.SelectionSort ints9533147 1 6) 1 6 ∧
      SortEngine.SortsInto ints9533147 (SortEngine.MergeSort ints9533147 1 6) 1 6 ∧
      SortEngine.SortsInto ints9533147 (SortEngine.QuickSort ints9533147 1 6) 1 6 ∧
      SortEngine.SortsInto ints9533147 (SortEngine.HeapSort ints9533147 1 6) 1 6) ∧
    (∀ choice,
      SortEngine.SortsInto ints9533147 (SortEngine.SortRange choice ints9533147 1 6) 1 6) ∧
    (SortEngine.SelectionSort ints9533147 1 6 = SortEngine.BubbleSort ints9533147 1 6 ∧
      SortEngine.MergeSort ints9533147 1 6 = SortEngine.BubbleSort ints9533147 1 6 ∧
      SortEngine.QuickSort ints9533147 1 6 = SortEngine.BubbleSort ints9533147 1 6 ∧
      SortEngine.HeapSort ints9533147 1 6 = SortEngine.BubbleSort ints9533147 1 6) ∧
    (SortEngine.slice (SortEngine.BubbleSort ints53314 0 5) 0 5 = [1, 3, 3, 4, 5] ∧
      SortEngine.slice (SortEngine.SelectionSort ints53314 0 5) 0 5 = [1, 3, 3, 4, 5] ∧
      SortEngine.slice (SortEngine.MergeSort ints53314 0 5) 0 5 = [1, 3, 3, 4, 5] ∧
      SortEngine.slice (SortEngine.QuickSort ints53314 0 5) 0 5 = [1, 3, 3, 4, 5] ∧
      SortEngine.slice (SortEngine.HeapSort ints53314 0 5) 0 5 = [1, 3, 3, 4, 5]) :=
  ⟨by decide,
    C12_every_sort_gives_the_ascending_permutation ints9533147 7 1 6 (by decide) (by decide)⟩

end CDS
